import Mathlib

/-!
Shallow embedding of the tdd-locker-python storage library.

Embedding conventions:
- Python values crossing the dynamically-typed API boundary are modelled by
  the inductive `PyVal` (only the constructors the library inspects).
- a Python exception is an `Err` carried in `Except`; a failing call returns
  only the error and the caller keeps its previous state, which mirrors the
  source, where every raise happens before any mutation.
- a Python dict (insertion ordered, unique keys) is an association list
  `List (String × String)` with the operations `dictLookup`, `dictInsert`
  (replace in place when the key is present, append otherwise) and
  `dictErase` (remove the first, i.e. unique, occurrence).
- `uuid.uuid4()` is modelled as an injective fresh-name supply `genTicket`
  driven by a counter threaded through every store operation; the library
  relies only on freshness of the generated tickets.
-/

/-- Python runtime values that the library inspects with isinstance. -/
inductive PyVal where
  | str (s : String)
  | int (n : Int)
  | pynone
deriving DecidableEq, Repr

/-- Python exceptions raised by the library: TypeError or ValueError with a message. -/
inductive Err where
  | typeError (msg : String)
  | valueError (msg : String)
deriving DecidableEq, Repr

/-- Lookup in a Python dict modelled as an association list: first matching key. -/
def dictLookup : List (String × String) → String → Option String
  | [], _ => none
  | (k', v) :: d, k => if k' = k then some v else dictLookup d k

/-- Python dict assignment d[k] = v: replace the entry in place when the key is
present, append a new entry otherwise. -/
def dictInsert : List (String × String) → String → String → List (String × String)
  | [], k, v => [(k, v)]
  | (k', v') :: d, k, v =>
    if k' = k then (k, v) :: d else (k', v') :: dictInsert d k v

/-- Python dict deletion del d[k]: remove the (unique) entry with key k. -/
def dictErase : List (String × String) → String → List (String × String)
  | [], _ => []
  | (k', v') :: d, k => if k' = k then d else (k', v') :: dictErase d k

/-- Keys of a stored-bags dict are pairwise distinct, as in every Python dict. -/
def KeysNodup (d : List (String × String)) : Prop := (d.map Prod.fst).Nodup

/-- Model of uuid.uuid4: an injective supply of fresh ticket strings driven by
a counter. The source relies only on the uniqueness of generated tickets. -/
def genTicket (n : Nat) : String := String.mk (List.replicate (n + 1) 'u')

/-- State of app/locker.py class Locker: total capability, remaining
available capability, and the stored_bags dict from ticket to content. -/
structure Locker where
  capability : Int
  available_capability : Int
  stored_bags : List (String × String)
deriving DecidableEq, Repr

/-- Constructor of Locker: TypeError unless the capability is an int,
ValueError unless it is positive; otherwise both capability fields start at
the given value and stored_bags starts empty. -/
def Locker.init (capability : PyVal) : Except Err Locker :=
  match capability with
  | .int c =>
    if c ≤ 0 then .error (.valueError "Capability must be greater than 0")
    else .ok ⟨c, c, []⟩
  | _ => .error (.typeError "Capability must be an integer")

/-- Locker.store_bag: TypeError on non-string content, ValueError when no
capability is left; otherwise insert the freshly generated ticket, decrement
available_capability and return the ticket together with the advanced
ticket counter. -/
def Locker.store_bag (l : Locker) (gen : Nat) (content : PyVal) :
    Except Err (String × Locker × Nat) :=
  match content with
  | .str c =>
    if l.available_capability ≤ 0 then .error (.valueError "Locker is full")
    else
      .ok (genTicket gen,
        { l with
          stored_bags := dictInsert l.stored_bags (genTicket gen) c,
          available_capability := l.available_capability - 1 },
        gen + 1)
  | _ => .error (.typeError "Bag content must be a string")

/-- Locker.retrieve_bag: ValueError "Invalid ticket" when the ticket is not a
string or is absent from stored_bags; otherwise remove the entry, increment
available_capability and return the content. -/
def Locker.retrieve_bag (l : Locker) (ticket : PyVal) :
    Except Err (String × Locker) :=
  match ticket with
  | .str t =>
    match dictLookup l.stored_bags t with
    | some content =>
      .ok (content,
        { l with
          stored_bags := dictErase l.stored_bags t,
          available_capability := l.available_capability + 1 })
    | none => .error (.valueError "Invalid ticket")
  | _ => .error (.valueError "Invalid ticket")

/-- Commands of an arbitrary client interaction with a single Locker. -/
inductive LockerOp where
  | store (content : PyVal)
  | retrieve (ticket : PyVal)

/-- Run a sequence of store_bag / retrieve_bag calls against a Locker,
threading the ticket counter. A failing call leaves the state unchanged,
mirroring the source where every raise happens before any mutation. -/
def Locker.run : Locker → Nat → List LockerOp → Locker × Nat
  | l, gen, [] => (l, gen)
  | l, gen, .store c :: ops =>
    match l.store_bag gen c with
    | .ok (_, l', g) => Locker.run l' g ops
    | .error _ => Locker.run l gen ops
  | l, gen, .retrieve t :: ops =>
    match l.retrieve_bag t with
    | .ok (_, l') => Locker.run l' gen ops
    | .error _ => Locker.run l gen ops

/-- Available capability of a locker, read by every selection policy. -/
def availOf (l : Locker) : Int := l.available_capability

/-- Vacancy rate of a locker, available capability over total capability,
modelled exactly over the rationals. -/
def vacancyRate (l : Locker) : Rat :=
  (l.available_capability : Rat) / (l.capability : Rat)

/-- Scan of SmartLockerRobot.store_bag over the lockers: running maximum of
available capability (started at 0) and index of the current best locker
(started at None); a locker is taken when its availability is positive and
strictly exceeds the running maximum, so the first maximum wins. -/
def smartSelectAux : List Locker → Nat → Int → Option Nat → Option Nat
  | [], _, _, best => best
  | l :: ls, i, maxCap, best =>
    if 0 < l.available_capability ∧ maxCap < l.available_capability then
      smartSelectAux ls (i + 1) l.available_capability (some i)
    else
      smartSelectAux ls (i + 1) maxCap best

/-- Index of the locker chosen by the SmartLockerRobot scan, if any. -/
def smartSelect (ls : List Locker) : Option Nat := smartSelectAux ls 0 0 none

/-- Modelled from the spec: the repository has no src/app/super_locker_robot.py,
only its tests; section 4.4 of the spec prescribes the scan of
SuperLockerRobot.store_bag, a running maximum vacancy rate compared with
strict greater-than, first maximum wins. -/
def superSelectAux : List Locker → Nat → Rat → Option Nat → Option Nat
  | [], _, _, best => best
  | l :: ls, i, maxRate, best =>
    if maxRate < vacancyRate l then
      superSelectAux ls (i + 1) (vacancyRate l) (some i)
    else
      superSelectAux ls (i + 1) maxRate best

/-- Modelled from the spec: index of the locker chosen by the
SuperLockerRobot scan, if any. -/
def superSelect (ls : List Locker) : Option Nat := superSelectAux ls 0 0 none

/-- Modelled from the spec: the repository has no
src/app/primary_locker_robot.py, only its tests; section 4.2 of the spec
prescribes first-fit, the first locker with positive available capacity. -/
def primarySelect : List Locker → Option Nat
  | [] => none
  | l :: ls =>
    if 0 < l.available_capability then some 0
    else (primarySelect ls).map (· + 1)

namespace SmartLockerRobot

/-- SmartLockerRobot.store_bag over its locker list: TypeError on non-string
content; pick the locker with maximal positive available capability, first
maximum wins; ValueError when every locker is full; otherwise delegate to the
chosen locker. The out-of-range branch is unreachable, the scan only
returns valid indices. -/
def store_bag (lockers : List Locker) (gen : Nat) (content : PyVal) :
    Except Err (String × List Locker × Nat) :=
  match content with
  | .str c =>
    match smartSelect lockers with
    | none => .error (.valueError "All lockers are full")
    | some i =>
      match lockers[i]? with
      | some l =>
        (l.store_bag gen (.str c)).map fun p => (p.1, lockers.set i p.2.1, p.2.2)
      | none => .error (.valueError "All lockers are full")
  | _ => .error (.typeError "Bag content must be a string")

end SmartLockerRobot

namespace PrimaryLockerRobot

/-- Modelled from the spec: store of the missing PrimaryLockerRobot,
first-fit delegation with the same error protocol as the smart robot. -/
def store_bag (lockers : List Locker) (gen : Nat) (content : PyVal) :
    Except Err (String × List Locker × Nat) :=
  match content with
  | .str c =>
    match primarySelect lockers with
    | none => .error (.valueError "All lockers are full")
    | some i =>
      match lockers[i]? with
      | some l =>
        (l.store_bag gen (.str c)).map fun p => (p.1, lockers.set i p.2.1, p.2.2)
      | none => .error (.valueError "All lockers are full")
  | _ => .error (.typeError "Bag content must be a string")

end PrimaryLockerRobot

namespace SuperLockerRobot

/-- Modelled from the spec: store of the missing SuperLockerRobot, delegation
to the locker with maximal vacancy rate, first maximum wins, with the same
error protocol as the smart robot. -/
def store_bag (lockers : List Locker) (gen : Nat) (content : PyVal) :
    Except Err (String × List Locker × Nat) :=
  match content with
  | .str c =>
    match superSelect lockers with
    | none => .error (.valueError "All lockers are full")
    | some i =>
      match lockers[i]? with
      | some l =>
        (l.store_bag gen (.str c)).map fun p => (p.1, lockers.set i p.2.1, p.2.2)
      | none => .error (.valueError "All lockers are full")
  | _ => .error (.typeError "Bag content must be a string")

end SuperLockerRobot

/-- Retrieval loop shared by every robot and by the manager phases: try each
locker in order, a ValueError from a child means try the next; Except over
Option Err distinguishes running off the end (error none) from propagating a
non-ValueError (error some, never produced by Locker.retrieve_bag). -/
def retrieveLoop : List Locker → PyVal → Except (Option Err) (String × List Locker)
  | [], _ => .error none
  | l :: ls, t =>
    match l.retrieve_bag t with
    | .ok (c, l') => .ok (c, l' :: ls)
    | .error (.valueError _) => (retrieveLoop ls t).map fun p => (p.1, l :: p.2)
    | .error e => .error (some e)

/-- SmartLockerRobot.retrieve_bag over its locker list (and, per spec 4.2 and
4.4, also the retrieve of the primary and super robots, which is the
identical linear scan by delegation): try each locker, continue past a
ValueError, raise ValueError "Invalid ticket" when exhausted. -/
def lockersRetrieve (lockers : List Locker) (ticket : PyVal) :
    Except Err (String × List Locker) :=
  match retrieveLoop lockers ticket with
  | .ok p => .ok p
  | .error none => .error (.valueError "Invalid ticket")
  | .error (some e) => .error e

/-- One robot of the hierarchy: the variant fixes the selection policy used
by store_bag; each holds the ordered lockers it manages. -/
inductive Robot where
  | primary (lockers : List Locker)
  | smart (lockers : List Locker)
  | superR (lockers : List Locker)
deriving DecidableEq, Repr

/-- Lockers managed by a robot. -/
def Robot.lockers : Robot → List Locker
  | .primary ls => ls
  | .smart ls => ls
  | .superR ls => ls

/-- Replace the lockers of a robot, keeping its variant. -/
def Robot.withLockers : Robot → List Locker → Robot
  | .primary _, ls => .primary ls
  | .smart _, ls => .smart ls
  | .superR _, ls => .superR ls

/-- Dispatch of store_bag over the robot variants. -/
def Robot.store_bag (r : Robot) (gen : Nat) (content : PyVal) :
    Except Err (String × Robot × Nat) :=
  match r with
  | .primary ls =>
    (PrimaryLockerRobot.store_bag ls gen content).map fun p =>
      (p.1, .primary p.2.1, p.2.2)
  | .smart ls =>
    (SmartLockerRobot.store_bag ls gen content).map fun p =>
      (p.1, .smart p.2.1, p.2.2)
  | .superR ls =>
    (SuperLockerRobot.store_bag ls gen content).map fun p =>
      (p.1, .superR p.2.1, p.2.2)

/-- Retrieve of every robot variant: the shared linear scan by delegation. -/
def Robot.retrieve_bag (r : Robot) (ticket : PyVal) :
    Except Err (String × Robot) :=
  (lockersRetrieve r.lockers ticket).map fun p => (p.1, r.withLockers p.2)

/-- State of app/locker_robot_manager.py class LockerRobotManager: its own
lockers and its robots, both in construction order. -/
structure LockerRobotManager where
  lockers : List Locker
  robots : List Robot
deriving DecidableEq, Repr

/-- Robot phase of LockerRobotManager.store_bag: try each robot in order, a
ValueError means try the next; error none when every robot rejected, error
some when a robot raised a non-ValueError (which would propagate). -/
def storeRobotsLoop : List Robot → Nat → PyVal → Except (Option Err) (String × List Robot × Nat)
  | [], _, _ => .error none
  | r :: rs, gen, c =>
    match r.store_bag gen c with
    | .ok (t, r', g) => .ok (t, r' :: rs, g)
    | .error (.valueError _) =>
      (storeRobotsLoop rs gen c).map fun p => (p.1, r :: p.2.1, p.2.2)
    | .error e => .error (some e)

/-- Own-locker phase of LockerRobotManager.store_bag: first locker with
positive available capability receives the store without any exception
guard; none when every own locker is at zero. -/
def firstFitStoreLoop : List Locker → Nat → PyVal →
    Option (Except Err (String × List Locker × Nat))
  | [], _, _ => none
  | l :: ls, gen, c =>
    if 0 < l.available_capability then
      some ((l.store_bag gen c).map fun p => (p.1, p.2.1 :: ls, p.2.2))
    else
      (firstFitStoreLoop ls gen c).map fun r =>
        r.map fun p => (p.1, l :: p.2.1, p.2.2)

/-- LockerRobotManager.store_bag: TypeError on non-string content; robots in
construction order first, then first-fit over the own lockers; ValueError
"All lockers are full" when everything rejected. -/
def LockerRobotManager.store_bag (m : LockerRobotManager) (gen : Nat) (content : PyVal) :
    Except Err (String × LockerRobotManager × Nat) :=
  match content with
  | .str c =>
    match storeRobotsLoop m.robots gen (.str c) with
    | .ok (t, rs, g) => .ok (t, { m with robots := rs }, g)
    | .error (some e) => .error e
    | .error none =>
      match firstFitStoreLoop m.lockers gen (.str c) with
      | some r => r.map fun p => (p.1, { m with lockers := p.2.1 }, p.2.2)
      | none => .error (.valueError "All lockers are full")
  | _ => .error (.typeError "Bag content must be a string")

/-- Robot phase of LockerRobotManager.retrieve_bag, with the same
try-next-on-ValueError protocol as the store loop. -/
def retrieveRobotsLoop : List Robot → PyVal → Except (Option Err) (String × List Robot)
  | [], _ => .error none
  | r :: rs, t =>
    match r.retrieve_bag t with
    | .ok (c, r') => .ok (c, r' :: rs)
    | .error (.valueError _) =>
      (retrieveRobotsLoop rs t).map fun p => (p.1, r :: p.2)
    | .error e => .error (some e)

/-- LockerRobotManager.retrieve_bag: every robot in order, then every own
locker in order, a ValueError from a child means try the next; ValueError
"Invalid ticket" when exhausted. -/
def LockerRobotManager.retrieve_bag (m : LockerRobotManager) (ticket : PyVal) :
    Except Err (String × LockerRobotManager) :=
  match retrieveRobotsLoop m.robots ticket with
  | .ok (c, rs) => .ok (c, { m with robots := rs })
  | .error (some e) => .error e
  | .error none =>
    match retrieveLoop m.lockers ticket with
    | .ok (c, ls) => .ok (c, { m with lockers := ls })
    | .error (some e) => .error e
    | .error none => .error (.valueError "Invalid ticket")

/-- State of app/locker_robot_director.py class LockerRobotDirector: the
managers in construction order. -/
structure LockerRobotDirector where
  managers : List LockerRobotManager
deriving DecidableEq, Repr

/-- LockerRobotDirector._calculate_robot_capability: total available and
maximum capability over the lockers of one robot, accumulated left to
right as in the source loop. -/
def calcRobotCapability (r : Robot) : Int × Int :=
  r.lockers.foldl
    (fun p l => (p.1 + l.available_capability, p.2 + l.capability)) (0, 0)

/-- LockerRobotDirector.generateReport: per manager, a totals line over own
lockers plus all robot lockers, one indented line per own locker, then per
robot a totals line and one further-indented line per robot locker, all
accumulated into one string exactly as the source loops do. -/
def LockerRobotDirector.generateReport (d : LockerRobotDirector) : String :=
  d.managers.foldl
    (fun report m =>
      let t0 : Int × Int :=
        m.lockers.foldl
          (fun p l => (p.1 + l.available_capability, p.2 + l.capability)) (0, 0)
      let t : Int × Int :=
        m.robots.foldl
          (fun p r =>
            let s := calcRobotCapability r
            (p.1 + s.1, p.2 + s.2)) t0
      let report := report ++ "M " ++ toString t.1 ++ " " ++ toString t.2 ++ "\n"
      let report :=
        m.lockers.foldl
          (fun rep l =>
            rep ++ "    L " ++ toString l.available_capability ++ " "
              ++ toString l.capability ++ "\n") report
      m.robots.foldl
        (fun rep r =>
          let s := calcRobotCapability r
          let rep := rep ++ "    R " ++ toString s.1 ++ " " ++ toString s.2 ++ "\n"
          r.lockers.foldl
            (fun rp l =>
              rp ++ "        L " ++ toString l.available_capability ++ " "
                ++ toString l.capability ++ "\n") rep) report)
    ""

/-- Every ticket key of the dict was produced by the supply strictly below
the current counter; this is the freshness invariant of genTicket. -/
def TicketsBelow (d : List (String × String)) (gen : Nat) : Prop :=
  ∀ p ∈ d, ∃ m, m < gen ∧ p.1 = genTicket m

/-- Reachable-state invariant of one Locker together with the ticket
counter: the capacity ledger balances, availability is nonnegative, and all
stored tickets come from the supply below the counter. -/
def LockerInv (l : Locker) (gen : Nat) : Prop :=
  l.available_capability = l.capability - l.stored_bags.length ∧
  0 ≤ l.available_capability ∧
  TicketsBelow l.stored_bags gen

/-- Every locker of the robot is out of capacity. -/
def Robot.allFull (r : Robot) : Prop :=
  ∀ l ∈ r.lockers, l.available_capability ≤ 0

/-- Every locker of the robot has positive total capability, as guaranteed
by the Locker constructor for every really constructed hierarchy. -/
def Robot.capsPos (r : Robot) : Prop :=
  ∀ l ∈ r.lockers, 0 < l.capability

/-- The locker holds an entry under the given ticket value (which must in
particular be a string). -/
def Locker.recognizes (l : Locker) (t : PyVal) : Prop :=
  ∃ s v, t = .str s ∧ dictLookup l.stored_bags s = some v

/-- Some locker of the robot holds an entry under the given ticket value. -/
def Robot.recognizes (r : Robot) (t : PyVal) : Prop :=
  ∃ l ∈ r.lockers, l.recognizes t

/-- Sum of available capabilities of a list of lockers. -/
def lockersAvail (ls : List Locker) : Int :=
  (ls.map (fun l => l.available_capability)).sum

/-- Sum of total capabilities of a list of lockers. -/
def lockersMax (ls : List Locker) : Int :=
  (ls.map (fun l => l.capability)).sum

/-- Total available capability of a manager, summed recursively over its own
lockers plus all the lockers of its robots, as the spec words it. -/
def managerAvail (m : LockerRobotManager) : Int :=
  lockersAvail m.lockers + (m.robots.map (fun r => lockersAvail r.lockers)).sum

/-- Total maximum capability of a manager, summed recursively over its own
lockers plus all the lockers of its robots, as the spec words it. -/
def managerMax (m : LockerRobotManager) : Int :=
  lockersMax m.lockers + (m.robots.map (fun r => lockersMax r.lockers)).sum

/-- Concatenation of a list of report lines into one string. -/
def strConcat : List String → String
  | [] => ""
  | s :: rest => s ++ strConcat rest

/-- One locker line of the report, the given prefix carrying the
indentation and the L tag. -/
def lockerLine (pre : String) (l : Locker) : String :=
  pre ++ toString l.available_capability ++ " "
    ++ toString l.capability ++ "\n"

/-- Report block of one robot as the spec describes it: its aggregated
totals line followed by one further-indented line per robot locker. -/
def robotBlock (r : Robot) : String :=
  "    R " ++ toString (lockersAvail r.lockers) ++ " "
    ++ toString (lockersMax r.lockers) ++ "\n"
    ++ strConcat (r.lockers.map (lockerLine "        L "))

/-- Report block of one manager as the spec describes it: the manager totals
line, one indented line per own locker, then the block of each robot. -/
def reportSpecBlock (m : LockerRobotManager) : String :=
  "M " ++ toString (managerAvail m) ++ " " ++ toString (managerMax m) ++ "\n"
    ++ strConcat (m.lockers.map (lockerLine "    L "))
    ++ strConcat (m.robots.map robotBlock)

/-- Report of the whole director as the spec describes it, one block per
manager in construction order. -/
def reportSpec (d : LockerRobotDirector) : String :=
  strConcat (d.managers.map reportSpecBlock)

theorem dictLookup_eq_none_of_forall_ne (d : List (String × String)) (k : String)
    (h : ∀ p ∈ d, p.1 ≠ k) : dictLookup d k = none := by
  induction d with
  | nil => rfl
  | cons hd tl ih =>
    obtain ⟨k', v⟩ := hd
    simp only [dictLookup]
    rw [if_neg (h (k', v) (List.mem_cons_self _ _))]
    exact ih fun p hp => h p (List.mem_cons_of_mem _ hp)

theorem dictInsert_eq_append (d : List (String × String)) (k v : String)
    (h : dictLookup d k = none) : dictInsert d k v = d ++ [(k, v)] := by
  induction d with
  | nil => rfl
  | cons hd tl ih =>
    obtain ⟨k', v'⟩ := hd
    simp only [dictLookup] at h
    simp only [dictInsert]
    by_cases hk : k' = k
    · simp [hk] at h
    · rw [if_neg hk] at h
      rw [if_neg hk, ih h]
      simp

theorem dictLookup_dictInsert_self (d : List (String × String)) (k v : String) :
    dictLookup (dictInsert d k v) k = some v := by
  induction d with
  | nil => simp [dictInsert, dictLookup]
  | cons hd tl ih =>
    obtain ⟨k', v'⟩ := hd
    by_cases hk : k' = k
    · simp [dictInsert, hk, dictLookup]
    · simp [dictInsert, hk, dictLookup, ih]

theorem dictErase_length (d : List (String × String)) (k : String) (v : String)
    (h : dictLookup d k = some v) : (dictErase d k).length + 1 = d.length := by
  induction d with
  | nil => cases h
  | cons hd tl ih =>
    obtain ⟨k', v'⟩ := hd
    simp only [dictLookup] at h
    simp only [dictErase]
    by_cases hk : k' = k
    · rw [if_pos hk]; simp
    · rw [if_neg hk] at h
      rw [if_neg hk]
      have := ih h
      simp only [List.length_cons]
      omega

theorem mem_dictErase (d : List (String × String)) (k : String) (p : String × String)
    (h : p ∈ dictErase d k) : p ∈ d := by
  induction d with
  | nil => simp [dictErase] at h
  | cons hd tl ih =>
    obtain ⟨k', v'⟩ := hd
    simp only [dictErase] at h
    by_cases hk : k' = k
    · rw [if_pos hk] at h
      exact List.mem_cons_of_mem _ h
    · rw [if_neg hk] at h
      rcases List.mem_cons.mp h with h | h
      · exact h ▸ List.mem_cons_self _ _
      · exact List.mem_cons_of_mem _ (ih h)

theorem mem_keys_dictInsert (d : List (String × String)) (k v a : String)
    (h : a ∈ (dictInsert d k v).map Prod.fst) :
    a ∈ d.map Prod.fst ∨ a = k := by
  induction d with
  | nil =>
    simp only [dictInsert, List.map_cons, List.map_nil, List.mem_singleton] at h
    exact Or.inr h
  | cons hd tl ih =>
    obtain ⟨k', v'⟩ := hd
    simp only [dictInsert] at h
    by_cases hk : k' = k
    · rw [if_pos hk] at h
      simp only [List.map_cons, List.mem_cons] at h
      rcases h with h | h
      · exact Or.inr h
      · exact Or.inl (by simp only [List.map_cons, List.mem_cons]; exact Or.inr h)
    · rw [if_neg hk] at h
      simp only [List.map_cons, List.mem_cons] at h
      rcases h with h | h
      · exact Or.inl (by simp only [List.map_cons, List.mem_cons]; exact Or.inl h)
      · rcases ih h with h | h
        · exact Or.inl (by simp only [List.map_cons, List.mem_cons]; exact Or.inr h)
        · exact Or.inr h

theorem keysNodup_dictInsert (d : List (String × String)) (k v : String)
    (h : KeysNodup d) : KeysNodup (dictInsert d k v) := by
  induction d with
  | nil => simp [dictInsert, KeysNodup]
  | cons hd tl ih =>
    obtain ⟨k', v'⟩ := hd
    simp only [KeysNodup, List.map_cons, List.nodup_cons] at h
    obtain ⟨hk', hnd⟩ := h
    simp only [dictInsert]
    by_cases hk : k' = k
    · rw [if_pos hk]
      simp only [KeysNodup, List.map_cons, List.nodup_cons]
      exact ⟨hk ▸ hk', hnd⟩
    · rw [if_neg hk]
      simp only [KeysNodup, List.map_cons, List.nodup_cons]
      refine ⟨fun hmem => ?_, ih hnd⟩
      rcases mem_keys_dictInsert tl k v k' hmem with hcase | hcase
      · exact hk' hcase
      · exact hk hcase

theorem dictLookup_dictErase_self (d : List (String × String)) (k : String)
    (h : KeysNodup d) : dictLookup (dictErase d k) k = none := by
  induction d with
  | nil => rfl
  | cons hd tl ih =>
    obtain ⟨k', v'⟩ := hd
    simp only [KeysNodup, List.map_cons, List.nodup_cons] at h
    obtain ⟨hk', hnd⟩ := h
    simp only [dictErase]
    by_cases hk : k' = k
    · rw [if_pos hk]
      apply dictLookup_eq_none_of_forall_ne
      intro p hp hpk
      apply hk'
      rw [hk, ← hpk]
      exact List.mem_map_of_mem Prod.fst hp
    · rw [if_neg hk]
      simp only [dictLookup]
      rw [if_neg hk]
      exact ih hnd

theorem genTicket_inj {m n : Nat} (h : genTicket m = genTicket n) : m = n := by
  have h2 := congrArg (fun s => s.data.length) h
  simp only [genTicket, List.length_replicate] at h2
  omega

theorem ticketsBelow_fresh (d : List (String × String)) (gen : Nat)
    (h : TicketsBelow d gen) : dictLookup d (genTicket gen) = none := by
  apply dictLookup_eq_none_of_forall_ne
  intro p hp hcontra
  obtain ⟨m, hm, hpm⟩ := h p hp
  rw [hpm] at hcontra
  exact absurd (genTicket_inj hcontra) (by omega)

theorem store_bag_inv (l : Locker) (gen : Nat) (content : PyVal)
    (t : String) (l' : Locker) (g : Nat)
    (hinv : LockerInv l gen)
    (h : l.store_bag gen content = .ok (t, l', g)) :
    LockerInv l' g := by
  obtain ⟨hbal, hnn, htk⟩ := hinv
  cases content with
  | str c =>
    simp only [Locker.store_bag] at h
    by_cases hfull : l.available_capability ≤ 0
    · rw [if_pos hfull] at h; cases h
    · rw [if_neg hfull] at h
      simp only [Except.ok.injEq, Prod.mk.injEq] at h
      obtain ⟨h1, h2, h3⟩ := h
      subst h1 h2 h3
      have hfree := ticketsBelow_fresh _ _ htk
      refine ⟨?_, ?_, ?_⟩
      · simp only [dictInsert_eq_append _ _ _ hfree, List.length_append,
          List.length_cons, List.length_nil]
        push_cast
        omega
      · simp only []
        omega
      · intro p hp
        rw [dictInsert_eq_append _ _ _ hfree] at hp
        rcases List.mem_append.mp hp with hp | hp
        · obtain ⟨m, hm, hpm⟩ := htk p hp
          exact ⟨m, by omega, hpm⟩
        · exact ⟨gen, by omega, by simp only [List.mem_singleton] at hp; rw [hp]⟩
  | int n => cases h
  | pynone => cases h

theorem retrieve_bag_inv (l : Locker) (gen : Nat) (ticket : PyVal)
    (c : String) (l' : Locker)
    (hinv : LockerInv l gen)
    (h : l.retrieve_bag ticket = .ok (c, l')) :
    LockerInv l' gen := by
  obtain ⟨hbal, hnn, htk⟩ := hinv
  cases ticket with
  | str t =>
    simp only [Locker.retrieve_bag] at h
    cases hlk : dictLookup l.stored_bags t with
    | none => rw [hlk] at h; cases h
    | some v =>
      rw [hlk] at h
      simp only [Except.ok.injEq, Prod.mk.injEq] at h
      obtain ⟨h1, h2⟩ := h
      subst h2
      have hlen := dictErase_length l.stored_bags t v hlk
      refine ⟨?_, ?_, ?_⟩
      · simp only []
        omega
      · simp only []
        omega
      · intro p hp
        exact htk p (mem_dictErase _ _ _ hp)
  | int n => cases h
  | pynone => cases h

theorem run_inv (ops : List LockerOp) (l : Locker) (gen : Nat)
    (hinv : LockerInv l gen) :
    LockerInv (Locker.run l gen ops).1 (Locker.run l gen ops).2 := by
  induction ops generalizing l gen with
  | nil => simpa [Locker.run] using hinv
  | cons op ops ih =>
    cases op with
    | store c =>
      simp only [Locker.run]
      cases hs : l.store_bag gen c with
      | ok p =>
        obtain ⟨t, l', g⟩ := p
        exact ih l' g (store_bag_inv l gen c t l' g hinv hs)
      | error e => exact ih l gen hinv
    | retrieve t =>
      simp only [Locker.run]
      cases hs : l.retrieve_bag t with
      | ok p =>
        obtain ⟨c, l'⟩ := p
        exact ih l' gen (retrieve_bag_inv l gen t c l' hinv hs)
      | error e => exact ih l gen hinv

/-- C3: for every Locker constructed with positive capability, after any
sequence of store_bag and retrieve_bag calls (successful or failing),
available_capability equals capability minus the number of entries in
stored_bags, and 0 <= available_capability <= capability. -/
theorem C3_locker_capacity_invariant (cap : Int) (hcap : 0 < cap)
    (ops : List LockerOp) (gen0 : Nat) :
    ∃ l0, Locker.init (.int cap) = .ok l0 ∧
      ((Locker.run l0 gen0 ops).1.available_capability =
          (Locker.run l0 gen0 ops).1.capability -
            (Locker.run l0 gen0 ops).1.stored_bags.length ∧
        0 ≤ (Locker.run l0 gen0 ops).1.available_capability ∧
        (Locker.run l0 gen0 ops).1.available_capability ≤
          (Locker.run l0 gen0 ops).1.capability) := by
  refine ⟨⟨cap, cap, []⟩, ?_, ?_⟩
  · simp only [Locker.init]
    rw [if_neg (not_le.mpr hcap)]
  · have hinv : LockerInv ⟨cap, cap, []⟩ gen0 :=
      ⟨by simp, le_of_lt hcap, by intro p hp; cases hp⟩
    obtain ⟨hbal, hnn, -⟩ := run_inv ops ⟨cap, cap, []⟩ gen0 hinv
    exact ⟨hbal, hnn, by omega⟩

/-- Witness for C3 at capability 2 and a concrete operation sequence
containing a successful store, a failing retrieve and a failing store. -/
theorem C3_locker_capacity_invariant_witness :
    0 < (2 : Int) ∧
    ∃ l0, Locker.init (.int 2) = .ok l0 ∧
      ((Locker.run l0 0 [.store (.str "a"), .retrieve (.str "zz"),
            .store (.int 3)]).1.available_capability =
          (Locker.run l0 0 [.store (.str "a"), .retrieve (.str "zz"),
            .store (.int 3)]).1.capability -
            (Locker.run l0 0 [.store (.str "a"), .retrieve (.str "zz"),
              .store (.int 3)]).1.stored_bags.length ∧
        0 ≤ (Locker.run l0 0 [.store (.str "a"), .retrieve (.str "zz"),
            .store (.int 3)]).1.available_capability ∧
        (Locker.run l0 0 [.store (.str "a"), .retrieve (.str "zz"),
            .store (.int 3)]).1.available_capability ≤
          (Locker.run l0 0 [.store (.str "a"), .retrieve (.str "zz"),
            .store (.int 3)]).1.capability) :=
  ⟨by decide,
    C3_locker_capacity_invariant 2 (by decide)
      [.store (.str "a"), .retrieve (.str "zz"), .store (.int 3)] 0⟩

/-- C5: for every Locker with positive available_capability, retrieving with
the ticket returned by store_bag gives back the stored content, and after
the round trip available_capability equals its pre-store value. -/
theorem C5_store_retrieve_round_trip (l : Locker) (gen : Nat) (c : String)
    (h : 0 < l.available_capability) :
    ∃ t l1 gen1, l.store_bag gen (.str c) = .ok (t, l1, gen1) ∧
      ∃ l2, l1.retrieve_bag (.str t) = .ok (c, l2) ∧
        l2.available_capability = l.available_capability := by
  have hs : l.store_bag gen (.str c) =
      .ok (genTicket gen,
        { l with
          stored_bags := dictInsert l.stored_bags (genTicket gen) c,
          available_capability := l.available_capability - 1 }, gen + 1) := by
    simp only [Locker.store_bag]
    rw [if_neg (not_le.mpr h)]
  have hr : ({ l with
      stored_bags := dictInsert l.stored_bags (genTicket gen) c,
      available_capability := l.available_capability - 1 } : Locker).retrieve_bag
        (.str (genTicket gen)) =
      .ok (c,
        { l with
          stored_bags := dictErase (dictInsert l.stored_bags (genTicket gen) c)
            (genTicket gen),
          available_capability := l.available_capability - 1 + 1 }) := by
    simp only [Locker.retrieve_bag, dictLookup_dictInsert_self]
  refine ⟨_, _, _, hs, _, hr, ?_⟩
  show l.available_capability - 1 + 1 = l.available_capability
  omega

/-- Witness for C5 at a fresh one-slot locker. -/
theorem C5_store_retrieve_round_trip_witness :
    0 < (Locker.mk 1 1 []).available_capability ∧
    ∃ t l1 gen1, (Locker.mk 1 1 []).store_bag 0 (.str "bag") = .ok (t, l1, gen1) ∧
      ∃ l2, l1.retrieve_bag (.str t) = .ok ("bag", l2) ∧
        l2.available_capability = (Locker.mk 1 1 []).available_capability :=
  ⟨by decide, C5_store_retrieve_round_trip (Locker.mk 1 1 []) 0 "bag" (by decide)⟩

/-- C7: a ticket is single use; once store_bag issued it and retrieve_bag
consumed it, a second retrieve_bag with the same ticket raises the
InvalidTicket error, because the first retrieval removed the entry. -/
theorem C7_ticket_single_use (l : Locker) (gen : Nat) (c t : String)
    (l1 : Locker) (gen1 : Nat)
    (hnd : KeysNodup l.stored_bags)
    (hstore : l.store_bag gen (.str c) = .ok (t, l1, gen1)) :
    ∃ l2, l1.retrieve_bag (.str t) = .ok (c, l2) ∧
      l2.retrieve_bag (.str t) = .error (.valueError "Invalid ticket") := by
  simp only [Locker.store_bag] at hstore
  by_cases hfull : l.available_capability ≤ 0
  · rw [if_pos hfull] at hstore; cases hstore
  · rw [if_neg hfull] at hstore
    simp only [Except.ok.injEq, Prod.mk.injEq] at hstore
    obtain ⟨h1, h2, h3⟩ := hstore
    subst h1 h2 h3
    have hnd2 := keysNodup_dictInsert l.stored_bags (genTicket gen) c hnd
    have hr1 : ({ l with
        stored_bags := dictInsert l.stored_bags (genTicket gen) c,
        available_capability := l.available_capability - 1 } : Locker).retrieve_bag
          (.str (genTicket gen)) =
        .ok (c,
          { l with
            stored_bags := dictErase (dictInsert l.stored_bags (genTicket gen) c)
              (genTicket gen),
            available_capability := l.available_capability - 1 + 1 }) := by
      simp only [Locker.retrieve_bag, dictLookup_dictInsert_self]
    have hr2 : ({ l with
        stored_bags := dictErase (dictInsert l.stored_bags (genTicket gen) c)
          (genTicket gen),
        available_capability := l.available_capability - 1 + 1 } : Locker).retrieve_bag
          (.str (genTicket gen)) =
        .error (.valueError "Invalid ticket") := by
      simp only [Locker.retrieve_bag, dictLookup_dictErase_self _ _ hnd2]
    exact ⟨_, hr1, hr2⟩

/-- Witness for C7 at a fresh two-slot locker. -/
theorem C7_ticket_single_use_witness :
    KeysNodup (Locker.mk 2 2 []).stored_bags ∧
    ∃ l2, (Locker.mk 2 1 [(genTicket 0, "b")]).retrieve_bag (.str (genTicket 0)) =
        .ok ("b", l2) ∧
      l2.retrieve_bag (.str (genTicket 0)) = .error (.valueError "Invalid ticket") :=
  ⟨by simp [KeysNodup],
    C7_ticket_single_use (Locker.mk 2 2 []) 0 "b" (genTicket 0)
      (Locker.mk 2 1 [(genTicket 0, "b")]) 1 (by simp [KeysNodup]) (by rfl)⟩

/-- C10: retrieve_bag rejects every non-string ticket with the same
InvalidTicket error as an unknown string ticket, without touching the
locker state (a failing retrieve returns no new state in this embedding,
mirroring the source where the raise precedes any mutation). -/
theorem C10_invalid_ticket_uniform (l : Locker) (v : PyVal)
    (hv : ∀ s, v ≠ .str s) :
    l.retrieve_bag v = .error (.valueError "Invalid ticket") ∧
    ∀ t, dictLookup l.stored_bags t = none →
      l.retrieve_bag (.str t) = .error (.valueError "Invalid ticket") := by
  constructor
  · cases v with
    | str s => exact absurd rfl (hv s)
    | int n => rfl
    | pynone => rfl
  · intro t ht
    simp only [Locker.retrieve_bag, ht]

/-- Witness for C10 at an int ticket and an unknown string ticket against a
locker holding one bag. -/
theorem C10_invalid_ticket_uniform_witness :
    (Locker.mk 1 0 [("k", "x")]).retrieve_bag (.int 7) =
      .error (.valueError "Invalid ticket") ∧
    (Locker.mk 1 0 [("k", "x")]).retrieve_bag (.str "zz") =
      .error (.valueError "Invalid ticket") :=
  ⟨(C10_invalid_ticket_uniform (Locker.mk 1 0 [("k", "x")]) (.int 7)
      (fun s h => by cases h)).1,
    (C10_invalid_ticket_uniform (Locker.mk 1 0 [("k", "x")]) (.int 7)
      (fun s h => by cases h)).2 "zz" (by rfl)⟩

theorem smartSelectAux_no_update (ls : List Locker) :
    ∀ i maxCap best, (∀ p ∈ ls, p.available_capability ≤ maxCap) →
    smartSelectAux ls i maxCap best = best := by
  induction ls with
  | nil => intro i maxCap best h; rfl
  | cons l ls ih =>
    intro i maxCap best h
    simp only [smartSelectAux]
    rw [if_neg]
    · exact ih _ _ _ fun p hp => h p (List.mem_cons_of_mem _ hp)
    · intro hcond
      exact absurd (h l (List.mem_cons_self _ _)) (not_le.mpr hcond.2)

theorem smartSelectAux_isSome (ls : List Locker) :
    ∀ i maxCap b, ∃ j, smartSelectAux ls i maxCap (some b) = some j := by
  induction ls with
  | nil => intro i maxCap b; exact ⟨b, rfl⟩
  | cons l ls ih =>
    intro i maxCap b
    simp only [smartSelectAux]
    by_cases hcond : 0 < l.available_capability ∧ maxCap < l.available_capability
    · rw [if_pos hcond]; exact ih _ _ _
    · rw [if_neg hcond]; exact ih _ _ _

theorem smartSelectAux_finds (ls : List Locker) :
    ∀ i maxCap best, 0 ≤ maxCap →
    (∃ p ∈ ls, maxCap < p.available_capability) →
    ∃ j, smartSelectAux ls i maxCap best = some j := by
  induction ls with
  | nil =>
    intro i maxCap best h0 h
    obtain ⟨p, hp, -⟩ := h
    cases hp
  | cons l ls ih =>
    intro i maxCap best h0 h
    simp only [smartSelectAux]
    by_cases hcond : 0 < l.available_capability ∧ maxCap < l.available_capability
    · rw [if_pos hcond]
      exact smartSelectAux_isSome ls _ _ _
    · rw [if_neg hcond]
      obtain ⟨p, hp, hpm⟩ := h
      rcases List.mem_cons.mp hp with rfl | hp'
      · exact absurd ⟨lt_of_le_of_lt h0 hpm, hpm⟩ hcond
      · exact ih _ _ _ h0 ⟨p, hp', hpm⟩

theorem smartSelectAux_argmax (pre : List Locker) (l : Locker) (post : List Locker) :
    ∀ i maxCap best, 0 ≤ maxCap → maxCap < l.available_capability →
    (∀ p ∈ pre, p.available_capability < l.available_capability) →
    (∀ p ∈ post, p.available_capability ≤ l.available_capability) →
    smartSelectAux (pre ++ l :: post) i maxCap best = some (i + pre.length) := by
  induction pre with
  | nil =>
    intro i maxCap best h0 hml hpre hpost
    simp only [List.nil_append, smartSelectAux]
    rw [if_pos ⟨lt_of_le_of_lt h0 hml, hml⟩]
    rw [smartSelectAux_no_update post _ _ _ hpost]
    simp
  | cons p pre ih =>
    intro i maxCap best h0 hml hpre hpost
    simp only [List.cons_append, smartSelectAux, List.append_eq]
    have hplt := hpre p (List.mem_cons_self _ _)
    by_cases hcond : 0 < p.available_capability ∧ maxCap < p.available_capability
    · rw [if_pos hcond]
      rw [ih _ _ _ (le_of_lt hcond.1) hplt
        (fun q hq => hpre q (List.mem_cons_of_mem _ hq)) hpost]
      simp only [List.length_cons, Option.some.injEq]
      omega
    · rw [if_neg hcond]
      rw [ih _ _ _ h0 hml
        (fun q hq => hpre q (List.mem_cons_of_mem _ hq)) hpost]
      simp only [List.length_cons, Option.some.injEq]
      omega

theorem smartSelectAux_sound (ls : List Locker) :
    ∀ i maxCap best j, smartSelectAux ls i maxCap best = some j →
    best = some j ∨
      ∃ k lk, j = i + k ∧ ls[k]? = some lk ∧ 0 < lk.available_capability := by
  induction ls with
  | nil => intro i maxCap best j h; exact Or.inl h
  | cons l ls ih =>
    intro i maxCap best j h
    simp only [smartSelectAux] at h
    by_cases hcond : 0 < l.available_capability ∧ maxCap < l.available_capability
    · rw [if_pos hcond] at h
      rcases ih _ _ _ _ h with hbest | ⟨k, lk, hjk, hget, hpos⟩
      · right
        refine ⟨0, l, ?_, by simp, hcond.1⟩
        injection hbest with hb
        omega
      · right
        exact ⟨k + 1, lk, by omega, by simpa using hget, hpos⟩
    · rw [if_neg hcond] at h
      rcases ih _ _ _ _ h with hbest | ⟨k, lk, hjk, hget, hpos⟩
      · exact Or.inl hbest
      · right
        exact ⟨k + 1, lk, by omega, by simpa using hget, hpos⟩

theorem smartSelect_none_iff (ls : List Locker) :
    smartSelect ls = none ↔ ∀ p ∈ ls, p.available_capability ≤ 0 := by
  constructor
  · intro h
    by_contra hcon
    push_neg at hcon
    obtain ⟨p, hp, hpos⟩ := hcon
    obtain ⟨j, hj⟩ := smartSelectAux_finds ls 0 0 none le_rfl ⟨p, hp, hpos⟩
    rw [smartSelect] at h
    rw [h] at hj
    cases hj
  · intro h
    exact smartSelectAux_no_update ls 0 0 none h

theorem smartSelect_sound (ls : List Locker) (j : Nat)
    (h : smartSelect ls = some j) :
    ∃ lk, ls[j]? = some lk ∧ 0 < lk.available_capability := by
  rcases smartSelectAux_sound ls 0 0 none j h with h' | ⟨k, lk, hk, hget, hpos⟩
  · cases h'
  · have hjk : j = k := by omega
    subst hjk
    exact ⟨lk, hget, hpos⟩

theorem smartSelect_argmax (pre : List Locker) (l : Locker) (post : List Locker)
    (hpos : 0 < l.available_capability)
    (hpre : ∀ p ∈ pre, p.available_capability < l.available_capability)
    (hpost : ∀ p ∈ post, p.available_capability ≤ l.available_capability) :
    smartSelect (pre ++ l :: post) = some pre.length := by
  have h := smartSelectAux_argmax pre l post 0 0 none le_rfl hpos hpre hpost
  simpa using h

theorem getElem?_append_len (pre : List Locker) (l : Locker) (post : List Locker) :
    (pre ++ l :: post)[pre.length]? = some l := by
  induction pre with
  | nil => simp
  | cons p pre ih => simpa using ih

theorem set_append_len (pre : List Locker) (l x : Locker) (post : List Locker) :
    (pre ++ l :: post).set pre.length x = pre ++ x :: post := by
  induction pre with
  | nil => rfl
  | cons p pre ih =>
    simp only [List.cons_append, List.length_cons, List.set_cons_succ, ih]

/-- C2: SmartLockerRobot.store_bag delegates to the locker whose
available_capability is strictly greatest among lockers with positive
availability, the earliest locker in construction order winning ties
because the scan compares with strict greater-than against a running
maximum; it raises the Full error exactly when every locker has zero
available capability (availabilities are nonnegative on every really
constructed locker). -/
theorem C2_smart_store_max_available (lockers : List Locker) (gen : Nat) (c : String)
    (hnn : ∀ p ∈ lockers, 0 ≤ p.available_capability) :
    (∀ pre l post, lockers = pre ++ l :: post →
      0 < l.available_capability →
      (∀ p ∈ pre, p.available_capability < l.available_capability) →
      (∀ p ∈ post, p.available_capability ≤ l.available_capability) →
      SmartLockerRobot.store_bag lockers gen (.str c) =
        (l.store_bag gen (.str c)).map fun p => (p.1, pre ++ p.2.1 :: post, p.2.2)) ∧
    (SmartLockerRobot.store_bag lockers gen (.str c) =
        .error (.valueError "All lockers are full") ↔
      ∀ p ∈ lockers, p.available_capability = 0) := by
  constructor
  · intro pre l post hdec hl hpre hpost
    subst hdec
    simp only [SmartLockerRobot.store_bag,
      smartSelect_argmax pre l post hl hpre hpost, getElem?_append_len,
      set_append_len]
  · constructor
    · intro h p hp
      cases hsel : smartSelect lockers with
      | none =>
        have h1 := (smartSelect_none_iff lockers).mp hsel p hp
        have h2 := hnn p hp
        omega
      | some j =>
        obtain ⟨lk, hget, hpos⟩ := smartSelect_sound lockers j hsel
        simp only [SmartLockerRobot.store_bag, hsel, hget] at h
        simp only [Locker.store_bag] at h
        rw [if_neg (not_le.mpr hpos)] at h
        simp [Except.map] at h
    · intro h
      have hsel : smartSelect lockers = none :=
        (smartSelect_none_iff lockers).mpr fun p hp => le_of_eq (h p hp)
      simp only [SmartLockerRobot.store_bag, hsel]

/-- Witness for C2 at three fresh lockers with availabilities 2, 3, 1: the
store goes to the second locker. -/
theorem C2_smart_store_max_available_witness :
    SmartLockerRobot.store_bag
        [Locker.mk 2 2 [], Locker.mk 3 3 [], Locker.mk 1 1 []] 0 (.str "b") =
      .ok (genTicket 0,
        [Locker.mk 2 2 [], Locker.mk 3 2 [(genTicket 0, "b")], Locker.mk 1 1 []],
        1) := by
  have h := (C2_smart_store_max_available
      [Locker.mk 2 2 [], Locker.mk 3 3 [], Locker.mk 1 1 []] 0 "b"
      (by decide)).1
    [Locker.mk 2 2 []] (Locker.mk 3 3 []) [Locker.mk 1 1 []] rfl
    (by decide) (by decide) (by decide)
  exact h.trans (by rfl)

theorem superSelectAux_no_update (ls : List Locker) :
    ∀ i maxRate best, (∀ p ∈ ls, vacancyRate p ≤ maxRate) →
    superSelectAux ls i maxRate best = best := by
  induction ls with
  | nil => intro i maxRate best h; rfl
  | cons l ls ih =>
    intro i maxRate best h
    simp only [superSelectAux]
    rw [if_neg (not_lt.mpr (h l (List.mem_cons_self _ _)))]
    exact ih _ _ _ fun p hp => h p (List.mem_cons_of_mem _ hp)

theorem superSelectAux_isSome (ls : List Locker) :
    ∀ i maxRate b, ∃ j, superSelectAux ls i maxRate (some b) = some j := by
  induction ls with
  | nil => intro i maxRate b; exact ⟨b, rfl⟩
  | cons l ls ih =>
    intro i maxRate b
    simp only [superSelectAux]
    by_cases hcond : maxRate < vacancyRate l
    · rw [if_pos hcond]; exact ih _ _ _
    · rw [if_neg hcond]; exact ih _ _ _

theorem superSelectAux_finds (ls : List Locker) :
    ∀ i maxRate best, (∃ p ∈ ls, maxRate < vacancyRate p) →
    ∃ j, superSelectAux ls i maxRate best = some j := by
  induction ls with
  | nil =>
    intro i maxRate best h
    obtain ⟨p, hp, -⟩ := h
    cases hp
  | cons l ls ih =>
    intro i maxRate best h
    simp only [superSelectAux]
    by_cases hcond : maxRate < vacancyRate l
    · rw [if_pos hcond]
      exact superSelectAux_isSome ls _ _ _
    · rw [if_neg hcond]
      obtain ⟨p, hp, hpm⟩ := h
      rcases List.mem_cons.mp hp with rfl | hp'
      · exact absurd hpm hcond
      · exact ih _ _ _ ⟨p, hp', hpm⟩

theorem superSelectAux_argmax (pre : List Locker) (l : Locker) (post : List Locker) :
    ∀ i maxRate best, maxRate < vacancyRate l →
    (∀ p ∈ pre, vacancyRate p < vacancyRate l) →
    (∀ p ∈ post, vacancyRate p ≤ vacancyRate l) →
    superSelectAux (pre ++ l :: post) i maxRate best = some (i + pre.length) := by
  induction pre with
  | nil =>
    intro i maxRate best hml hpre hpost
    simp only [List.nil_append, superSelectAux]
    rw [if_pos hml]
    rw [superSelectAux_no_update post _ _ _ hpost]
    simp
  | cons p pre ih =>
    intro i maxRate best hml hpre hpost
    simp only [List.cons_append, superSelectAux, List.append_eq]
    have hplt := hpre p (List.mem_cons_self _ _)
    by_cases hcond : maxRate < vacancyRate p
    · rw [if_pos hcond]
      rw [ih _ _ _ hplt
        (fun q hq => hpre q (List.mem_cons_of_mem _ hq)) hpost]
      simp only [List.length_cons, Option.some.injEq]
      omega
    · rw [if_neg hcond]
      rw [ih _ _ _ hml
        (fun q hq => hpre q (List.mem_cons_of_mem _ hq)) hpost]
      simp only [List.length_cons, Option.some.injEq]
      omega

theorem superSelectAux_sound (ls : List Locker) :
    ∀ i maxRate best j, 0 ≤ maxRate →
    superSelectAux ls i maxRate best = some j →
    best = some j ∨
      ∃ k lk, j = i + k ∧ ls[k]? = some lk ∧ 0 < vacancyRate lk := by
  induction ls with
  | nil => intro i maxRate best j h0 h; exact Or.inl h
  | cons l ls ih =>
    intro i maxRate best j h0 h
    simp only [superSelectAux] at h
    by_cases hcond : maxRate < vacancyRate l
    · rw [if_pos hcond] at h
      rcases ih _ _ _ _ (le_of_lt (lt_of_le_of_lt h0 hcond)) h with
        hbest | ⟨k, lk, hjk, hget, hpos⟩
      · right
        refine ⟨0, l, ?_, by simp, lt_of_le_of_lt h0 hcond⟩
        injection hbest with hb
        omega
      · right
        exact ⟨k + 1, lk, by omega, by simpa using hget, hpos⟩
    · rw [if_neg hcond] at h
      rcases ih _ _ _ _ h0 h with hbest | ⟨k, lk, hjk, hget, hpos⟩
      · exact Or.inl hbest
      · right
        exact ⟨k + 1, lk, by omega, by simpa using hget, hpos⟩

theorem vacancyRate_pos_iff (l : Locker) (hc : 0 < l.capability) :
    0 < vacancyRate l ↔ 0 < l.available_capability := by
  have hcQ : (0 : Rat) < (l.capability : Rat) := by exact_mod_cast hc
  constructor
  · intro h
    rcases div_pos_iff.mp h with ⟨ha, -⟩ | ⟨-, hb⟩
    · exact_mod_cast ha
    · exact absurd hcQ (not_lt.mpr (le_of_lt hb))
  · intro h
    exact div_pos (by exact_mod_cast h) hcQ

theorem vacancyRate_nonpos_iff (l : Locker) (hc : 0 < l.capability) :
    vacancyRate l ≤ 0 ↔ l.available_capability ≤ 0 := by
  rw [← not_lt, ← not_lt]
  exact not_congr (vacancyRate_pos_iff l hc)

theorem superSelect_none_iff (ls : List Locker)
    (hc : ∀ p ∈ ls, 0 < p.capability) :
    superSelect ls = none ↔ ∀ p ∈ ls, p.available_capability ≤ 0 := by
  constructor
  · intro h p hp
    rw [← vacancyRate_nonpos_iff p (hc p hp)]
    by_contra hcon
    push_neg at hcon
    obtain ⟨j, hj⟩ := superSelectAux_finds ls 0 0 none ⟨p, hp, hcon⟩
    rw [superSelect] at h
    rw [h] at hj
    cases hj
  · intro h
    exact superSelectAux_no_update ls 0 0 none fun p hp =>
      (vacancyRate_nonpos_iff p (hc p hp)).mpr (h p hp)

theorem superSelect_sound (ls : List Locker) (j : Nat)
    (h : superSelect ls = some j) :
    ∃ lk, ls[j]? = some lk ∧ 0 < vacancyRate lk := by
  rcases superSelectAux_sound ls 0 0 none j le_rfl h with
    h' | ⟨k, lk, hk, hget, hpos⟩
  · cases h'
  · have hjk : j = k := by omega
    subst hjk
    exact ⟨lk, hget, hpos⟩

theorem superSelect_argmax (pre : List Locker) (l : Locker) (post : List Locker)
    (hpos : 0 < vacancyRate l)
    (hpre : ∀ p ∈ pre, vacancyRate p < vacancyRate l)
    (hpost : ∀ p ∈ post, vacancyRate p ≤ vacancyRate l) :
    superSelect (pre ++ l :: post) = some pre.length := by
  have h := superSelectAux_argmax pre l post 0 0 none hpos hpre hpost
  simpa using h

theorem mem_of_getElem?_eq (ls : List Locker) (j : Nat) (a : Locker)
    (h : ls[j]? = some a) : a ∈ ls := by
  induction ls generalizing j with
  | nil => simp at h
  | cons l ls ih =>
    cases j with
    | zero =>
      simp only [List.getElem?_cons_zero, Option.some.injEq] at h
      rw [h]
      exact List.mem_cons_self _ _
    | succ j =>
      simp only [List.getElem?_cons_succ] at h
      exact List.mem_cons_of_mem _ (ih j h)

/-- C9: SuperLockerRobot.store_bag, modelled from the spec because the source
file is absent from the repository, computes the vacancy rate
available_capability / capability of every locker and delegates to the
locker with the strictly greatest rate, the earliest locker in construction
order winning exact ties; it raises the Full error exactly when every locker
has zero available capability (capabilities are positive and availabilities
nonnegative on every really constructed locker). -/
theorem C9_super_store_max_vacancy (lockers : List Locker) (gen : Nat) (c : String)
    (hc : ∀ p ∈ lockers, 0 < p.capability)
    (hnn : ∀ p ∈ lockers, 0 ≤ p.available_capability) :
    (∀ pre l post, lockers = pre ++ l :: post →
      0 < l.available_capability →
      (∀ p ∈ pre, vacancyRate p < vacancyRate l) →
      (∀ p ∈ post, vacancyRate p ≤ vacancyRate l) →
      SuperLockerRobot.store_bag lockers gen (.str c) =
        (l.store_bag gen (.str c)).map fun p => (p.1, pre ++ p.2.1 :: post, p.2.2)) ∧
    (SuperLockerRobot.store_bag lockers gen (.str c) =
        .error (.valueError "All lockers are full") ↔
      ∀ p ∈ lockers, p.available_capability = 0) := by
  constructor
  · intro pre l post hdec hl hpre hpost
    have hlmem : l ∈ lockers := by
      rw [hdec]; exact List.mem_append_right _ (List.mem_cons_self _ _)
    have hlrate : 0 < vacancyRate l :=
      (vacancyRate_pos_iff l (hc l hlmem)).mpr hl
    subst hdec
    simp only [SuperLockerRobot.store_bag,
      superSelect_argmax pre l post hlrate hpre hpost, getElem?_append_len,
      set_append_len]
  · constructor
    · intro h p hp
      cases hsel : superSelect lockers with
      | none =>
        have h1 := (superSelect_none_iff lockers hc).mp hsel p hp
        have h2 := hnn p hp
        omega
      | some j =>
        obtain ⟨lk, hget, hrate⟩ := superSelect_sound lockers j hsel
        have hkmem : lk ∈ lockers := mem_of_getElem?_eq lockers j lk hget
        have hpos : 0 < lk.available_capability :=
          (vacancyRate_pos_iff lk (hc lk hkmem)).mp hrate
        simp only [SuperLockerRobot.store_bag, hsel, hget] at h
        simp only [Locker.store_bag] at h
        rw [if_neg (not_le.mpr hpos)] at h
        simp [Except.map] at h
    · intro h
      have hsel : superSelect lockers = none :=
        (superSelect_none_iff lockers hc).mpr fun p hp => le_of_eq (h p hp)
      simp only [SuperLockerRobot.store_bag, hsel]

/-- Witness for C9 at the two lockers of the spec example, rates 1 and 2/3:
the store goes to the first locker. -/
theorem C9_super_store_max_vacancy_witness :
    SuperLockerRobot.store_bag
        [Locker.mk 2 2 [], Locker.mk 3 2 [("t", "old")]] 0 (.str "b") =
      .ok (genTicket 0,
        [Locker.mk 2 1 [(genTicket 0, "b")], Locker.mk 3 2 [("t", "old")]],
        1) := by
  have h := (C9_super_store_max_vacancy
      [Locker.mk 2 2 [], Locker.mk 3 2 [("t", "old")]] 0 "b"
      (by decide) (by decide)).1
    [] (Locker.mk 2 2 []) [Locker.mk 3 2 [("t", "old")]] rfl
    (by decide)
    (by intro p hp; cases hp)
    (by
      intro p hp
      rcases List.mem_singleton.mp hp with rfl
      show vacancyRate (Locker.mk 3 2 [("t", "old")]) ≤
        vacancyRate (Locker.mk 2 2 [])
      norm_num [vacancyRate])
  exact h.trans (by rfl)

theorem primarySelect_none_iff (ls : List Locker) :
    primarySelect ls = none ↔ ∀ p ∈ ls, p.available_capability ≤ 0 := by
  induction ls with
  | nil => simp [primarySelect]
  | cons l ls ih =>
    simp only [primarySelect]
    by_cases hl : 0 < l.available_capability
    · rw [if_pos hl]
      simp only [List.mem_cons]
      constructor
      · intro h; cases h
      · intro h
        exact absurd (h l (Or.inl rfl)) (not_le.mpr hl)
    · rw [if_neg hl]
      constructor
      · intro h p hp
        rcases List.mem_cons.mp hp with rfl | hp'
        · exact not_lt.mp hl
        · refine (ih.mp ?_) p hp'
          cases hrec : primarySelect ls with
          | none => rfl
          | some j => rw [hrec] at h; cases h
      · intro h
        have hrec : primarySelect ls = none :=
          ih.mpr fun p hp => h p (List.mem_cons_of_mem _ hp)
        rw [hrec]
        rfl

theorem primarySelect_sound (ls : List Locker) :
    ∀ j, primarySelect ls = some j →
    ∃ lk, ls[j]? = some lk ∧ 0 < lk.available_capability := by
  induction ls with
  | nil => intro j h; cases h
  | cons l ls ih =>
    intro j h
    simp only [primarySelect] at h
    by_cases hl : 0 < l.available_capability
    · rw [if_pos hl] at h
      injection h with h
      subst h
      exact ⟨l, by simp, hl⟩
    · rw [if_neg hl] at h
      cases hrec : primarySelect ls with
      | none => rw [hrec] at h; cases h
      | some j' =>
        rw [hrec] at h
        simp only [Option.map] at h
        cases h
        obtain ⟨lk, hget, hpos⟩ := ih j' hrec
        exact ⟨lk, by simpa using hget, hpos⟩

theorem primarySelect_finds (ls : List Locker)
    (h : ∃ p ∈ ls, 0 < p.available_capability) :
    ∃ j, primarySelect ls = some j := by
  induction ls with
  | nil =>
    obtain ⟨p, hp, -⟩ := h
    cases hp
  | cons l ls ih =>
    simp only [primarySelect]
    by_cases hl : 0 < l.available_capability
    · rw [if_pos hl]; exact ⟨0, rfl⟩
    · rw [if_neg hl]
      obtain ⟨p, hp, hpos⟩ := h
      rcases List.mem_cons.mp hp with rfl | hp'
      · exact absurd hpos hl
      · obtain ⟨j, hj⟩ := ih ⟨p, hp', hpos⟩
        exact ⟨j + 1, by rw [hj]; rfl⟩

theorem robot_store_allFull (r : Robot) (gen : Nat) (c : String)
    (hcaps : r.capsPos) (hfull : r.allFull) :
    r.store_bag gen (.str c) = .error (.valueError "All lockers are full") := by
  cases r with
  | primary ls =>
    have hsel : primarySelect ls = none := (primarySelect_none_iff ls).mpr hfull
    simp [Robot.store_bag, PrimaryLockerRobot.store_bag, hsel, Except.map]
  | smart ls =>
    have hsel : smartSelect ls = none := (smartSelect_none_iff ls).mpr hfull
    simp [Robot.store_bag, SmartLockerRobot.store_bag, hsel, Except.map]
  | superR ls =>
    have hsel : superSelect ls = none := (superSelect_none_iff ls hcaps).mpr hfull
    simp [Robot.store_bag, SuperLockerRobot.store_bag, hsel, Except.map]

theorem robot_store_ok (r : Robot) (gen : Nat) (c : String)
    (hcaps : r.capsPos) (hnotfull : ¬ r.allFull) :
    ∃ t r' g, r.store_bag gen (.str c) = .ok (t, r', g) := by
  have hex : ∃ p ∈ r.lockers, 0 < p.available_capability := by
    simp only [Robot.allFull] at hnotfull
    push_neg at hnotfull
    exact hnotfull
  cases r with
  | primary ls =>
    obtain ⟨j, hj⟩ := primarySelect_finds ls hex
    obtain ⟨lk, hget, hpos⟩ := primarySelect_sound ls j hj
    obtain ⟨⟨t, l', g⟩, hst⟩ : ∃ x, lk.store_bag gen (.str c) = .ok x := by
      simp only [Locker.store_bag]
      rw [if_neg (not_le.mpr hpos)]
      exact ⟨_, rfl⟩
    exact ⟨t, .primary (ls.set j l'), g, by
      simp [Robot.store_bag, PrimaryLockerRobot.store_bag, hj, hget, hst, Except.map]⟩
  | smart ls =>
    obtain ⟨j, hj⟩ := smartSelectAux_finds ls 0 0 none le_rfl hex
    obtain ⟨lk, hget, hpos⟩ := smartSelect_sound ls j hj
    obtain ⟨⟨t, l', g⟩, hst⟩ : ∃ x, lk.store_bag gen (.str c) = .ok x := by
      simp only [Locker.store_bag]
      rw [if_neg (not_le.mpr hpos)]
      exact ⟨_, rfl⟩
    exact ⟨t, .smart (ls.set j l'), g, by
      simp [Robot.store_bag, SmartLockerRobot.store_bag, smartSelect, hj, hget, hst, Except.map]⟩
  | superR ls =>
    have hexr : ∃ p ∈ ls, (0 : Rat) < vacancyRate p := by
      obtain ⟨p, hp, hpos⟩ := hex
      exact ⟨p, hp, (vacancyRate_pos_iff p (hcaps p hp)).mpr hpos⟩
    obtain ⟨j, hj⟩ := superSelectAux_finds ls 0 0 none hexr
    obtain ⟨lk, hget, hrate⟩ := superSelect_sound ls j hj
    have hkmem : lk ∈ ls := mem_of_getElem?_eq ls j lk hget
    have hpos : 0 < lk.available_capability :=
      (vacancyRate_pos_iff lk (hcaps lk hkmem)).mp hrate
    obtain ⟨⟨t, l', g⟩, hst⟩ : ∃ x, lk.store_bag gen (.str c) = .ok x := by
      simp only [Locker.store_bag]
      rw [if_neg (not_le.mpr hpos)]
      exact ⟨_, rfl⟩
    exact ⟨t, .superR (ls.set j l'), g, by
      simp [Robot.store_bag, SuperLockerRobot.store_bag, superSelect, hj, hget, hst, Except.map]⟩

theorem storeRobotsLoop_all_error (rs : List Robot) (gen : Nat) (c : String)
    (h : ∀ r ∈ rs, r.capsPos ∧ r.allFull) :
    storeRobotsLoop rs gen (.str c) = .error none := by
  induction rs with
  | nil => rfl
  | cons r rs ih =>
    have hr := h r (List.mem_cons_self _ _)
    have hst := robot_store_allFull r gen c hr.1 hr.2
    simp only [storeRobotsLoop, hst]
    rw [ih fun r' hr' => h r' (List.mem_cons_of_mem _ hr')]
    rfl

theorem storeRobotsLoop_first_ok (pre : List Robot) (r : Robot) (post : List Robot)
    (gen : Nat) (c : String) (t : String) (r' : Robot) (g : Nat)
    (hpre : ∀ r0 ∈ pre, r0.capsPos ∧ r0.allFull)
    (hok : r.store_bag gen (.str c) = .ok (t, r', g)) :
    storeRobotsLoop (pre ++ r :: post) gen (.str c) =
      .ok (t, pre ++ r' :: post, g) := by
  induction pre with
  | nil =>
    simp only [List.nil_append, storeRobotsLoop, hok]
  | cons r0 pre ih =>
    have h0 := hpre r0 (List.mem_cons_self _ _)
    have hst := robot_store_allFull r0 gen c h0.1 h0.2
    simp only [List.cons_append, storeRobotsLoop, hst, List.append_eq]
    rw [ih fun rr hrr => hpre rr (List.mem_cons_of_mem _ hrr)]
    rfl

theorem storeRobotsLoop_exists_ok (rs : List Robot) (gen : Nat) (c : String)
    (hcaps : ∀ r ∈ rs, r.capsPos)
    (hex : ∃ r ∈ rs, ¬ r.allFull) :
    ∃ t rs' g, storeRobotsLoop rs gen (.str c) = .ok (t, rs', g) := by
  induction rs with
  | nil =>
    obtain ⟨r, hr, -⟩ := hex
    cases hr
  | cons r rs ih =>
    by_cases hfull : r.allFull
    · have hst := robot_store_allFull r gen c (hcaps r (List.mem_cons_self _ _)) hfull
      have hex' : ∃ r' ∈ rs, ¬ r'.allFull := by
        obtain ⟨r0, hr0, hnf⟩ := hex
        rcases List.mem_cons.mp hr0 with rfl | hr0'
        · exact absurd hfull hnf
        · exact ⟨r0, hr0', hnf⟩
      obtain ⟨t, rs', g, hloop⟩ :=
        ih (fun r' h => hcaps r' (List.mem_cons_of_mem _ h)) hex'
      exact ⟨t, r :: rs', g, by
        simp [storeRobotsLoop, hst, hloop, Except.map]⟩
    · obtain ⟨t, r', g, hst⟩ :=
        robot_store_ok r gen c (hcaps r (List.mem_cons_self _ _)) hfull
      exact ⟨t, r' :: rs, g, by simp only [storeRobotsLoop, hst]⟩

theorem firstFitStoreLoop_none_iff (ls : List Locker) (gen : Nat) (c : PyVal) :
    firstFitStoreLoop ls gen c = none ↔ ∀ l ∈ ls, l.available_capability ≤ 0 := by
  induction ls with
  | nil => simp [firstFitStoreLoop]
  | cons l ls ih =>
    simp only [firstFitStoreLoop]
    by_cases hl : 0 < l.available_capability
    · rw [if_pos hl]
      constructor
      · intro h; cases h
      · intro h
        exact absurd (h l (List.mem_cons_self _ _)) (not_le.mpr hl)
    · rw [if_neg hl]
      constructor
      · intro h p hp
        rcases List.mem_cons.mp hp with rfl | hp'
        · exact not_lt.mp hl
        · refine ih.mp ?_ p hp'
          cases hrec : firstFitStoreLoop ls gen c with
          | none => rfl
          | some x => rw [hrec] at h; cases h
      · intro h
        rw [ih.mpr fun p hp => h p (List.mem_cons_of_mem _ hp)]
        rfl

theorem firstFitStoreLoop_first (pre : List Locker) (l : Locker) (post : List Locker)
    (gen : Nat) (c : PyVal)
    (hpre : ∀ p ∈ pre, p.available_capability ≤ 0)
    (hl : 0 < l.available_capability) :
    firstFitStoreLoop (pre ++ l :: post) gen c =
      some ((l.store_bag gen c).map fun p => (p.1, pre ++ p.2.1 :: post, p.2.2)) := by
  induction pre with
  | nil =>
    simp only [List.nil_append, firstFitStoreLoop]
    rw [if_pos hl]
  | cons p0 pre ih =>
    simp only [List.cons_append, firstFitStoreLoop, List.append_eq]
    rw [if_neg (not_lt.mpr (hpre p0 (List.mem_cons_self _ _)))]
    rw [ih fun q hq => hpre q (List.mem_cons_of_mem _ hq)]
    simp only [Option.map]
    cases l.store_bag gen c with
    | ok x => rfl
    | error e => rfl

theorem firstFitStoreLoop_some_ok (ls : List Locker) (gen : Nat) (c : String) :
    ∀ r, firstFitStoreLoop ls gen (.str c) = some r →
    ∃ t ls' g, r = .ok (t, ls', g) := by
  induction ls with
  | nil => intro r h; cases h
  | cons l ls ih =>
    intro r h
    simp only [firstFitStoreLoop] at h
    by_cases hl : 0 < l.available_capability
    · rw [if_pos hl] at h
      simp only [Option.some.injEq] at h
      subst h
      simp only [Locker.store_bag]
      rw [if_neg (not_le.mpr hl)]
      exact ⟨_, _, _, rfl⟩
    · rw [if_neg hl] at h
      cases hrec : firstFitStoreLoop ls gen (.str c) with
      | none => rw [hrec] at h; cases h
      | some r0 =>
        rw [hrec] at h
        simp only [Option.map] at h
        cases h
        obtain ⟨t, ls', g, hr0⟩ := ih r0 hrec
        subst hr0
        exact ⟨t, l :: ls', g, rfl⟩

theorem manager_store_full_iff (m : LockerRobotManager) (gen : Nat) (c : String)
    (hcaps : ∀ r ∈ m.robots, r.capsPos) :
    m.store_bag gen (.str c) = .error (.valueError "All lockers are full") ↔
      ((∀ r ∈ m.robots, r.allFull) ∧
        ∀ l ∈ m.lockers, l.available_capability ≤ 0) := by
  constructor
  · intro h
    have hrob : ∀ r ∈ m.robots, r.allFull := by
      by_contra hcon
      push_neg at hcon
      obtain ⟨t, rs', g, hloop⟩ :=
        storeRobotsLoop_exists_ok m.robots gen c hcaps hcon
      simp only [LockerRobotManager.store_bag, hloop] at h
      cases h
    have hloop := storeRobotsLoop_all_error m.robots gen c
      fun r hr => ⟨hcaps r hr, hrob r hr⟩
    refine ⟨hrob, ?_⟩
    simp only [LockerRobotManager.store_bag, hloop] at h
    cases hff : firstFitStoreLoop m.lockers gen (.str c) with
    | none => exact (firstFitStoreLoop_none_iff _ _ _).mp hff
    | some r =>
      exfalso
      obtain ⟨t, ls', g, hr⟩ := firstFitStoreLoop_some_ok m.lockers gen c r hff
      rw [hff, hr] at h
      simp [Except.map] at h
  · rintro ⟨hrob, hlock⟩
    have hloop := storeRobotsLoop_all_error m.robots gen c
      fun r hr => ⟨hcaps r hr, hrob r hr⟩
    have hff : firstFitStoreLoop m.lockers gen (.str c) = none :=
      (firstFitStoreLoop_none_iff _ _ _).mpr hlock
    simp only [LockerRobotManager.store_bag, hloop, hff]

theorem manager_store_first_robot (m : LockerRobotManager) (gen : Nat) (c : String)
    (pre : List Robot) (r : Robot) (post : List Robot)
    (hdec : m.robots = pre ++ r :: post)
    (hcaps : ∀ r0 ∈ m.robots, r0.capsPos)
    (hpre : ∀ r0 ∈ pre, r0.allFull)
    (hnot : ¬ r.allFull) :
    ∃ t r' g, r.store_bag gen (.str c) = .ok (t, r', g) ∧
      m.store_bag gen (.str c) =
        .ok (t, { m with robots := pre ++ r' :: post }, g) := by
  have hrmem : r ∈ m.robots := by
    rw [hdec]
    exact List.mem_append_right _ (List.mem_cons_self _ _)
  obtain ⟨t, r', g, hok⟩ := robot_store_ok r gen c (hcaps r hrmem) hnot
  have hpre' : ∀ r0 ∈ pre, r0.capsPos ∧ r0.allFull := fun r0 h0 =>
    ⟨hcaps r0 (by rw [hdec]; exact List.mem_append_left _ h0), hpre r0 h0⟩
  have hloop := storeRobotsLoop_first_ok pre r post gen c t r' g hpre' hok
  refine ⟨t, r', g, hok, ?_⟩
  simp only [LockerRobotManager.store_bag, hdec, hloop]

theorem manager_store_fallback (m : LockerRobotManager) (gen : Nat) (c : String)
    (hcaps : ∀ r ∈ m.robots, r.capsPos)
    (hallfull : ∀ r ∈ m.robots, r.allFull)
    (pre : List Locker) (l : Locker) (post : List Locker)
    (hdec : m.lockers = pre ++ l :: post)
    (hpre : ∀ p ∈ pre, p.available_capability ≤ 0)
    (hl : 0 < l.available_capability) :
    m.store_bag gen (.str c) =
      (l.store_bag gen (.str c)).map
        fun p => (p.1, { m with lockers := pre ++ p.2.1 :: post }, p.2.2) := by
  have hloop := storeRobotsLoop_all_error m.robots gen c
    fun r hr => ⟨hcaps r hr, hallfull r hr⟩
  have hff := firstFitStoreLoop_first pre l post gen (.str c) hpre hl
  simp only [LockerRobotManager.store_bag, hloop, hdec, hff]
  cases l.store_bag gen (.str c) with
  | ok x => rfl
  | error e => rfl

/-- C1: LockerRobotManager.store_bag tries each robot in construction order,
a Full-class failure from one meaning try the next, and the first robot able
to store receives the bag; only when every robot is full does it fall back
to its own lockers, choosing the first locker with positive
available_capability; it raises the Full error with message "All lockers are
full" exactly when every robot and every own locker has rejected the item
(robot lockers have positive capability on every really constructed
hierarchy). -/
theorem C1_manager_store_policy (m : LockerRobotManager) (gen : Nat) (c : String)
    (hcaps : ∀ r ∈ m.robots, r.capsPos) :
    (∀ pre r post, m.robots = pre ++ r :: post →
      (∀ r0 ∈ pre, r0.allFull) → ¬ r.allFull →
      ∃ t r' g, r.store_bag gen (.str c) = .ok (t, r', g) ∧
        m.store_bag gen (.str c) =
          .ok (t, { m with robots := pre ++ r' :: post }, g)) ∧
    ((∀ r ∈ m.robots, r.allFull) →
      ∀ pre l post, m.lockers = pre ++ l :: post →
        (∀ p ∈ pre, p.available_capability ≤ 0) →
        0 < l.available_capability →
        m.store_bag gen (.str c) =
          (l.store_bag gen (.str c)).map
            fun p => (p.1, { m with lockers := pre ++ p.2.1 :: post }, p.2.2)) ∧
    (m.store_bag gen (.str c) = .error (.valueError "All lockers are full") ↔
      (∀ r ∈ m.robots, r.allFull) ∧
        ∀ l ∈ m.lockers, l.available_capability ≤ 0) :=
  ⟨fun pre r post hdec hpre hnot =>
      manager_store_first_robot m gen c pre r post hdec hcaps hpre hnot,
    fun hall pre l post hdec hpre hl =>
      manager_store_fallback m gen c hcaps hall pre l post hdec hpre hl,
    manager_store_full_iff m gen c hcaps⟩

/-- Witness for C1: a manager whose only robot is full stores into its own
first free locker. -/
theorem C1_manager_store_policy_witness :
    LockerRobotManager.store_bag
        ⟨[Locker.mk 1 1 []], [Robot.smart [Locker.mk 1 0 [("t", "x")]]]⟩
        0 (.str "b") =
      .ok (genTicket 0,
        ⟨[Locker.mk 1 0 [(genTicket 0, "b")]],
          [Robot.smart [Locker.mk 1 0 [("t", "x")]]]⟩,
        1) := by
  have hcaps : ∀ r ∈ [Robot.smart [Locker.mk 1 0 [("t", "x")]]], r.capsPos := by
    intro r hr
    rcases List.mem_singleton.mp hr with rfl
    intro l hl
    rcases List.mem_singleton.mp hl with rfl
    decide
  have hall : ∀ r ∈ [Robot.smart [Locker.mk 1 0 [("t", "x")]]], r.allFull := by
    intro r hr
    rcases List.mem_singleton.mp hr with rfl
    intro l hl
    rcases List.mem_singleton.mp hl with rfl
    decide
  have h := (C1_manager_store_policy
      ⟨[Locker.mk 1 1 []], [Robot.smart [Locker.mk 1 0 [("t", "x")]]]⟩
      0 "b" hcaps).2.1 hall [] (Locker.mk 1 1 []) [] rfl
      (by intro p hp; cases hp) (by decide)
  exact h.trans (by rfl)

/-- C6: in a hierarchy in which every locker has zero available capability,
store fails with the Full error at the robot level and at the manager level;
a failing store returns only the error in this embedding, mirroring the
source where every raise precedes any mutation, so no locker state changes. -/
theorem C6_full_hierarchy_store_fails (m : LockerRobotManager) (gen : Nat) (c : String)
    (hcaps : ∀ r ∈ m.robots, r.capsPos)
    (hfullR : ∀ r ∈ m.robots, ∀ l ∈ r.lockers, l.available_capability = 0)
    (hfullL : ∀ l ∈ m.lockers, l.available_capability = 0) :
    (∀ r ∈ m.robots,
      r.store_bag gen (.str c) = .error (.valueError "All lockers are full")) ∧
    m.store_bag gen (.str c) = .error (.valueError "All lockers are full") := by
  have hrfull : ∀ r ∈ m.robots, r.allFull :=
    fun r hr l hl => le_of_eq (hfullR r hr l hl)
  refine ⟨fun r hr => robot_store_allFull r gen c (hcaps r hr) (hrfull r hr), ?_⟩
  exact (manager_store_full_iff m gen c hcaps).mpr
    ⟨hrfull, fun l hl => le_of_eq (hfullL l hl)⟩

/-- Witness for C6 at a one-robot, one-own-locker hierarchy, everything at
zero availability. -/
theorem C6_full_hierarchy_store_fails_witness :
    Robot.store_bag (Robot.smart [Locker.mk 2 0 [("a", "x"), ("b", "y")]]) 0 (.str "b") =
      .error (.valueError "All lockers are full") ∧
    LockerRobotManager.store_bag
        ⟨[Locker.mk 1 0 [("c", "z")]],
          [Robot.smart [Locker.mk 2 0 [("a", "x"), ("b", "y")]]]⟩ 0 (.str "b") =
      .error (.valueError "All lockers are full") := by
  have hcaps : ∀ r ∈ [Robot.smart [Locker.mk 2 0 [("a", "x"), ("b", "y")]]],
      r.capsPos := by
    intro r hr
    rcases List.mem_singleton.mp hr with rfl
    intro l hl
    rcases List.mem_singleton.mp hl with rfl
    decide
  have hfullR : ∀ r ∈ [Robot.smart [Locker.mk 2 0 [("a", "x"), ("b", "y")]]],
      ∀ l ∈ r.lockers, l.available_capability = 0 := by
    intro r hr
    rcases List.mem_singleton.mp hr with rfl
    intro l hl
    rcases List.mem_singleton.mp hl with rfl
    decide
  have hfullL : ∀ l ∈ [Locker.mk 1 0 [("c", "z")]], l.available_capability = 0 := by
    intro l hl
    rcases List.mem_singleton.mp hl with rfl
    decide
  have h := C6_full_hierarchy_store_fails
    ⟨[Locker.mk 1 0 [("c", "z")]],
      [Robot.smart [Locker.mk 2 0 [("a", "x"), ("b", "y")]]]⟩ 0 "b"
    hcaps hfullR hfullL
  exact ⟨h.1 _ (List.mem_singleton.mpr rfl), h.2⟩

theorem exists_first_split {α : Type} (P : α → Prop) :
    ∀ ls : List α, (∃ x ∈ ls, P x) →
    ∃ pre x post, ls = pre ++ x :: post ∧ (∀ y ∈ pre, ¬ P y) ∧ P x := by
  intro ls
  induction ls with
  | nil =>
    intro h
    obtain ⟨x, hx, -⟩ := h
    cases hx
  | cons a ls ih =>
    intro h
    by_cases ha : P a
    · exact ⟨[], a, ls, rfl, fun y hy => (List.not_mem_nil y hy).elim, ha⟩
    · obtain ⟨x, hx, hPx⟩ := h
      rcases List.mem_cons.mp hx with rfl | hx'
      · exact absurd hPx ha
      · obtain ⟨pre, x0, post, hdec, hpre, hP⟩ := ih ⟨x, hx', hPx⟩
        refine ⟨a :: pre, x0, post, by rw [hdec]; rfl, ?_, hP⟩
        intro y hy
        rcases List.mem_cons.mp hy with rfl | hy'
        · exact ha
        · exact hpre y hy'

theorem locker_retrieve_not_rec (l : Locker) (t : PyVal)
    (h : ¬ l.recognizes t) :
    l.retrieve_bag t = .error (.valueError "Invalid ticket") := by
  cases t with
  | str s =>
    cases hlk : dictLookup l.stored_bags s with
    | none => simp only [Locker.retrieve_bag, hlk]
    | some v => exact absurd ⟨s, v, rfl, hlk⟩ h
  | int n => rfl
  | pynone => rfl

theorem locker_retrieve_rec (l : Locker) (s v : String)
    (h : dictLookup l.stored_bags s = some v) :
    l.retrieve_bag (.str s) =
      .ok (v,
        { l with
          stored_bags := dictErase l.stored_bags s,
          available_capability := l.available_capability + 1 }) := by
  simp only [Locker.retrieve_bag, h]

theorem locker_retrieve_error_shape (l : Locker) (t : PyVal) (e : Err)
    (h : l.retrieve_bag t = .error e) : e = .valueError "Invalid ticket" := by
  cases t with
  | str s =>
    cases hlk : dictLookup l.stored_bags s with
    | none =>
      rw [locker_retrieve_not_rec l (.str s)] at h
      · injection h with h
        exact h.symm
      · rintro ⟨s', v, hs, hlk'⟩
        injection hs with hs
        subst hs
        rw [hlk] at hlk'
        cases hlk'
    | some v =>
      rw [locker_retrieve_rec l s v hlk] at h
      cases h
  | int n =>
    injection h with h
    exact h.symm
  | pynone =>
    injection h with h
    exact h.symm

theorem retrieveLoop_none (ls : List Locker) (t : PyVal)
    (h : ∀ l ∈ ls, ¬ l.recognizes t) :
    retrieveLoop ls t = .error none := by
  induction ls with
  | nil => rfl
  | cons l ls ih =>
    have hl := locker_retrieve_not_rec l t (h l (List.mem_cons_self _ _))
    simp only [retrieveLoop, hl]
    rw [ih fun p hp => h p (List.mem_cons_of_mem _ hp)]
    rfl

theorem retrieveLoop_first (pre : List Locker) (l : Locker) (post : List Locker)
    (s v : String)
    (hpre : ∀ p ∈ pre, ¬ p.recognizes (.str s))
    (hl : dictLookup l.stored_bags s = some v) :
    retrieveLoop (pre ++ l :: post) (.str s) =
      .ok (v, pre ++
        ({ l with
          stored_bags := dictErase l.stored_bags s,
          available_capability := l.available_capability + 1 } : Locker) :: post) := by
  induction pre with
  | nil =>
    simp only [List.nil_append, retrieveLoop, locker_retrieve_rec l s v hl]
  | cons p0 pre ih =>
    have h0 := locker_retrieve_not_rec p0 (.str s) (hpre p0 (List.mem_cons_self _ _))
    simp only [List.cons_append, retrieveLoop, h0, List.append_eq]
    rw [ih fun q hq => hpre q (List.mem_cons_of_mem _ hq)]
    rfl

theorem retrieveLoop_error_none (ls : List Locker) (t : PyVal) :
    ∀ o, retrieveLoop ls t = .error o → o = none := by
  induction ls with
  | nil =>
    intro o h
    injection h with h
    exact h.symm
  | cons l ls ih =>
    intro o h
    simp only [retrieveLoop] at h
    cases hr : l.retrieve_bag t with
    | ok p =>
      rw [hr] at h
      obtain ⟨c, l'⟩ := p
      cases h
    | error e =>
      have he := locker_retrieve_error_shape l t e hr
      subst he
      rw [hr] at h
      cases hrec : retrieveLoop ls t with
      | ok p => rw [hrec] at h; cases h
      | error o' =>
        rw [hrec] at h
        injection h with h
        exact h ▸ ih o' hrec

theorem retrieveLoop_conv (ls : List Locker) (t : PyVal) :
    retrieveLoop ls t = .error none → ∀ l ∈ ls, ¬ l.recognizes t := by
  induction ls with
  | nil => intro h l hl; cases hl
  | cons l ls ih =>
    intro h p hp
    simp only [retrieveLoop] at h
    cases hr : l.retrieve_bag t with
    | ok q =>
      rw [hr] at h
      obtain ⟨c, l'⟩ := q
      cases h
    | error e =>
      have he := locker_retrieve_error_shape l t e hr
      subst he
      rw [hr] at h
      have hrec : retrieveLoop ls t = .error none := by
        cases hrec : retrieveLoop ls t with
        | ok q => rw [hrec] at h; cases h
        | error o' =>
          rw [hrec] at h
          injection h with h
          rw [h]
      rcases List.mem_cons.mp hp with rfl | hp'
      · rintro ⟨s, v, hs, hlk⟩
        subst hs
        rw [locker_retrieve_rec p s v hlk] at hr
        cases hr
      · exact ih hrec p hp'

theorem robot_retrieve_not_rec (r : Robot) (t : PyVal)
    (h : ¬ r.recognizes t) :
    r.retrieve_bag t = .error (.valueError "Invalid ticket") := by
  have hall : ∀ l ∈ r.lockers, ¬ l.recognizes t := by
    intro l hl hrec
    exact h ⟨l, hl, hrec⟩
  have hloop := retrieveLoop_none r.lockers t hall
  simp [Robot.retrieve_bag, lockersRetrieve, hloop, Except.map]

theorem robot_retrieve_first (r : Robot) (pre : List Locker) (l : Locker)
    (post : List Locker) (s v : String)
    (hdec : r.lockers = pre ++ l :: post)
    (hpre : ∀ p ∈ pre, ¬ p.recognizes (.str s))
    (hl : dictLookup l.stored_bags s = some v) :
    r.retrieve_bag (.str s) =
      .ok (v, r.withLockers (pre ++
        ({ l with
          stored_bags := dictErase l.stored_bags s,
          available_capability := l.available_capability + 1 } : Locker) :: post)) := by
  have hloop := retrieveLoop_first pre l post s v hpre hl
  simp [Robot.retrieve_bag, lockersRetrieve, hdec, hloop, Except.map]

theorem robot_retrieve_error_shape (r : Robot) (t : PyVal) (e : Err)
    (h : r.retrieve_bag t = .error e) : e = .valueError "Invalid ticket" := by
  simp only [Robot.retrieve_bag] at h
  cases hlr : lockersRetrieve r.lockers t with
  | ok p =>
    rw [hlr] at h
    obtain ⟨c, ls'⟩ := p
    cases h
  | error e' =>
    rw [hlr] at h
    injection h with h
    subst h
    cases hloop : retrieveLoop r.lockers t with
    | ok p =>
      obtain ⟨c, ls'⟩ := p
      simp only [lockersRetrieve, hloop] at hlr
      cases hlr
    | error o =>
      have ho := retrieveLoop_error_none r.lockers t o hloop
      subst ho
      simp only [lockersRetrieve, hloop] at hlr
      injection hlr with hlr
      exact hlr.symm

theorem robot_retrieve_conv (r : Robot) (t : PyVal) (e : Err)
    (h : r.retrieve_bag t = .error e) : ¬ r.recognizes t := by
  rintro ⟨l, hl, hrec⟩
  obtain ⟨pre, l0, post, hdec, hpre, hP⟩ :=
    exists_first_split (fun p => p.recognizes t) r.lockers ⟨l, hl, hrec⟩
  obtain ⟨s, v, hs, hlk⟩ := hP
  subst hs
  rw [robot_retrieve_first r pre l0 post s v hdec hpre hlk] at h
  cases h

theorem robot_retrieve_none_iff (r : Robot) (t : PyVal) :
    r.retrieve_bag t = .error (.valueError "Invalid ticket") ↔
      ¬ r.recognizes t := by
  constructor
  · intro h
    exact robot_retrieve_conv r t _ h
  · exact robot_retrieve_not_rec r t

theorem retrieveRobotsLoop_none (rs : List Robot) (t : PyVal)
    (h : ∀ r ∈ rs, ¬ r.recognizes t) :
    retrieveRobotsLoop rs t = .error none := by
  induction rs with
  | nil => rfl
  | cons r rs ih =>
    have hr := robot_retrieve_not_rec r t (h r (List.mem_cons_self _ _))
    simp only [retrieveRobotsLoop, hr]
    rw [ih fun p hp => h p (List.mem_cons_of_mem _ hp)]
    rfl

theorem retrieveRobotsLoop_first (pre : List Robot) (r : Robot) (post : List Robot)
    (t : PyVal) (v : String) (r' : Robot)
    (hpre : ∀ p ∈ pre, ¬ p.recognizes t)
    (hok : r.retrieve_bag t = .ok (v, r')) :
    retrieveRobotsLoop (pre ++ r :: post) t = .ok (v, pre ++ r' :: post) := by
  induction pre with
  | nil => simp only [List.nil_append, retrieveRobotsLoop, hok]
  | cons r0 pre ih =>
    have h0 := robot_retrieve_not_rec r0 t (hpre r0 (List.mem_cons_self _ _))
    simp only [List.cons_append, retrieveRobotsLoop, h0, List.append_eq]
    rw [ih fun p hp => hpre p (List.mem_cons_of_mem _ hp)]
    rfl

theorem retrieveRobotsLoop_error_none (rs : List Robot) (t : PyVal) :
    ∀ o, retrieveRobotsLoop rs t = .error o → o = none := by
  induction rs with
  | nil =>
    intro o h
    injection h with h
    exact h.symm
  | cons r rs ih =>
    intro o h
    simp only [retrieveRobotsLoop] at h
    cases hr : r.retrieve_bag t with
    | ok p =>
      rw [hr] at h
      obtain ⟨c, r'⟩ := p
      cases h
    | error e =>
      have he := robot_retrieve_error_shape r t e hr
      subst he
      rw [hr] at h
      cases hrec : retrieveRobotsLoop rs t with
      | ok p => rw [hrec] at h; cases h
      | error o' =>
        rw [hrec] at h
        injection h with h
        exact h ▸ ih o' hrec

theorem retrieveRobotsLoop_conv (rs : List Robot) (t : PyVal) :
    retrieveRobotsLoop rs t = .error none → ∀ r ∈ rs, ¬ r.recognizes t := by
  induction rs with
  | nil => intro h r hr; cases hr
  | cons r rs ih =>
    intro h p hp
    simp only [retrieveRobotsLoop] at h
    cases hr : r.retrieve_bag t with
    | ok q =>
      rw [hr] at h
      obtain ⟨c, r'⟩ := q
      cases h
    | error e =>
      have he := robot_retrieve_error_shape r t e hr
      subst he
      rw [hr] at h
      have hrec : retrieveRobotsLoop rs t = .error none := by
        cases hrec : retrieveRobotsLoop rs t with
        | ok q => rw [hrec] at h; cases h
        | error o' =>
          rw [hrec] at h
          injection h with h
          rw [h]
      rcases List.mem_cons.mp hp with rfl | hp'
      · exact robot_retrieve_conv _ t _ hr
      · exact ih hrec p hp'

theorem manager_retrieve_none_iff (m : LockerRobotManager) (t : PyVal) :
    m.retrieve_bag t = .error (.valueError "Invalid ticket") ↔
      (∀ r ∈ m.robots, ¬ r.recognizes t) ∧
        ∀ l ∈ m.lockers, ¬ l.recognizes t := by
  constructor
  · intro h
    cases hR : retrieveRobotsLoop m.robots t with
    | ok p =>
      obtain ⟨c, rs'⟩ := p
      simp only [LockerRobotManager.retrieve_bag, hR] at h
      cases h
    | error o =>
      have ho := retrieveRobotsLoop_error_none m.robots t o hR
      subst ho
      refine ⟨retrieveRobotsLoop_conv m.robots t hR, ?_⟩
      simp only [LockerRobotManager.retrieve_bag, hR] at h
      cases hL : retrieveLoop m.lockers t with
      | ok p =>
        obtain ⟨c, ls'⟩ := p
        rw [hL] at h
        cases h
      | error o' =>
        have ho' := retrieveLoop_error_none m.lockers t o' hL
        subst ho'
        exact retrieveLoop_conv m.lockers t hL
  · rintro ⟨hR, hL⟩
    have h1 := retrieveRobotsLoop_none m.robots t hR
    have h2 := retrieveLoop_none m.lockers t hL
    simp only [LockerRobotManager.retrieve_bag, h1, h2]

theorem manager_retrieve_first_robot (m : LockerRobotManager) (t : PyVal)
    (pre : List Robot) (r : Robot) (post : List Robot)
    (hdec : m.robots = pre ++ r :: post)
    (hpre : ∀ p ∈ pre, ¬ p.recognizes t)
    (hrec : r.recognizes t) :
    ∃ v r', r.retrieve_bag t = .ok (v, r') ∧
      m.retrieve_bag t = .ok (v, { m with robots := pre ++ r' :: post }) := by
  obtain ⟨l1, hl1, hrec1⟩ := hrec
  obtain ⟨lpre, l0, lpost, hldec, hlpre, hlP⟩ :=
    exists_first_split (fun p => p.recognizes t) r.lockers ⟨l1, hl1, hrec1⟩
  obtain ⟨s, v, hs, hlk⟩ := hlP
  subst hs
  have hok := robot_retrieve_first r lpre l0 lpost s v hldec hlpre hlk
  refine ⟨v, _, hok, ?_⟩
  have hloop := retrieveRobotsLoop_first pre r post (.str s) v _ hpre hok
  simp only [LockerRobotManager.retrieve_bag, hdec, hloop]

theorem manager_retrieve_own_locker (m : LockerRobotManager) (s v : String)
    (hrobots : ∀ r ∈ m.robots, ¬ r.recognizes (.str s))
    (pre : List Locker) (l : Locker) (post : List Locker)
    (hdec : m.lockers = pre ++ l :: post)
    (hpre : ∀ p ∈ pre, ¬ p.recognizes (.str s))
    (hl : dictLookup l.stored_bags s = some v) :
    m.retrieve_bag (.str s) =
      .ok (v, { m with lockers := pre ++
        ({ l with
          stored_bags := dictErase l.stored_bags s,
          available_capability := l.available_capability + 1 } : Locker) :: post }) := by
  have hR := retrieveRobotsLoop_none m.robots (.str s) hrobots
  have hL := retrieveLoop_first pre l post s v hpre hl
  simp only [LockerRobotManager.retrieve_bag, hR, hdec, hL]

/-- C4: retrieval routing. For every manager and every ticket value, the
manager tries every robot in construction order then every own locker in
order, treating a child InvalidTicket error as try-next: the first robot
holding the ticket answers with the stored item, a ticket held by no robot
but by an own locker is answered from the first such locker, and the
InvalidTicket error is raised exactly when no robot and no own locker
recognizes the ticket; likewise every robot (in particular every
SmartLockerRobot) answers from the first locker holding the ticket and
raises InvalidTicket exactly when no locker recognizes it. -/
theorem C4_retrieve_routing (m : LockerRobotManager) (r0 : Robot) (t : PyVal) :
    (m.retrieve_bag t = .error (.valueError "Invalid ticket") ↔
      (∀ r ∈ m.robots, ¬ r.recognizes t) ∧
        ∀ l ∈ m.lockers, ¬ l.recognizes t) ∧
    (∀ pre r post, m.robots = pre ++ r :: post →
      (∀ p ∈ pre, ¬ p.recognizes t) → r.recognizes t →
      ∃ v r', r.retrieve_bag t = .ok (v, r') ∧
        m.retrieve_bag t = .ok (v, { m with robots := pre ++ r' :: post })) ∧
    (∀ s v, (∀ r ∈ m.robots, ¬ r.recognizes (.str s)) →
      ∀ pre l post, m.lockers = pre ++ l :: post →
        (∀ p ∈ pre, ¬ p.recognizes (.str s)) →
        dictLookup l.stored_bags s = some v →
        m.retrieve_bag (.str s) =
          .ok (v, { m with lockers := pre ++
            ({ l with
              stored_bags := dictErase l.stored_bags s,
              available_capability := l.available_capability + 1 } : Locker)
            :: post })) ∧
    (r0.retrieve_bag t = .error (.valueError "Invalid ticket") ↔
      ¬ r0.recognizes t) ∧
    (∀ s v pre l post, r0.lockers = pre ++ l :: post →
      (∀ p ∈ pre, ¬ p.recognizes (.str s)) →
      dictLookup l.stored_bags s = some v →
      r0.retrieve_bag (.str s) =
        .ok (v, r0.withLockers (pre ++
          ({ l with
            stored_bags := dictErase l.stored_bags s,
            available_capability := l.available_capability + 1 } : Locker)
          :: post))) :=
  ⟨manager_retrieve_none_iff m t,
    fun pre r post hdec hpre hrec =>
      manager_retrieve_first_robot m t pre r post hdec hpre hrec,
    fun s v hrobots pre l post hdec hpre hl =>
      manager_retrieve_own_locker m s v hrobots pre l post hdec hpre hl,
    robot_retrieve_none_iff r0 t,
    fun s v pre l post hdec hpre hl =>
      robot_retrieve_first r0 pre l post s v hdec hpre hl⟩

/-- Witness for C4: a manager whose only robot holds the ticket answers the
retrieval with the stored item and the robot slot is freed. -/
theorem C4_retrieve_routing_witness :
    LockerRobotManager.retrieve_bag
        ⟨[], [Robot.smart [Locker.mk 2 1 [("k", "pay")]]]⟩ (.str "k") =
      .ok ("pay", ⟨[], [Robot.smart [Locker.mk 2 2 []]]⟩) := by
  have h := (C4_retrieve_routing
      ⟨[], [Robot.smart [Locker.mk 2 1 [("k", "pay")]]]⟩
      (Robot.smart [Locker.mk 2 1 [("k", "pay")]]) (.str "k")).2.1
    [] (Robot.smart [Locker.mk 2 1 [("k", "pay")]]) [] rfl
    (by intro p hp; cases hp)
    ⟨Locker.mk 2 1 [("k", "pay")], List.mem_singleton.mpr rfl,
      "k", "pay", rfl, by rfl⟩
  obtain ⟨v, r', hok, hm⟩ := h
  have heval : Robot.retrieve_bag
      (Robot.smart [Locker.mk 2 1 [("k", "pay")]]) (.str "k") =
      .ok ("pay", Robot.smart [Locker.mk 2 2 []]) := by rfl
  rw [heval] at hok
  injection hok with hok
  cases hok
  exact hm

theorem str_append_assoc (a b c : String) : a ++ b ++ c = a ++ (b ++ c) := by
  obtain ⟨xa⟩ := a
  obtain ⟨xb⟩ := b
  obtain ⟨xc⟩ := c
  show String.mk (xa ++ xb ++ xc) = String.mk (xa ++ (xb ++ xc))
  rw [List.append_assoc]

theorem str_append_empty (a : String) : a ++ "" = a := by
  obtain ⟨xa⟩ := a
  show String.mk (xa ++ []) = String.mk xa
  rw [List.append_nil]

theorem str_empty_append (a : String) : "" ++ a = a := by
  obtain ⟨xa⟩ := a
  show String.mk ([] ++ xa) = String.mk xa
  rw [List.nil_append]

theorem foldl_caps (ls : List Locker) :
    ∀ a b : Int,
    ls.foldl (fun p l => (p.1 + l.available_capability, p.2 + l.capability)) (a, b) =
      (a + lockersAvail ls, b + lockersMax ls) := by
  induction ls with
  | nil => intro a b; simp [lockersAvail, lockersMax]
  | cons l ls ih =>
    intro a b
    simp only [List.foldl_cons]
    rw [ih]
    simp only [lockersAvail, lockersMax, List.map_cons, List.sum_cons, Prod.mk.injEq]
    constructor <;> ring

theorem calcRobot_eq (r : Robot) :
    calcRobotCapability r = (lockersAvail r.lockers, lockersMax r.lockers) := by
  have h := foldl_caps r.lockers 0 0
  simpa [calcRobotCapability] using h

theorem foldl_robot_caps_clean (rs : List Robot) :
    ∀ a b : Int,
    rs.foldl
      (fun p r => (p.1 + lockersAvail r.lockers, p.2 + lockersMax r.lockers))
      (a, b) =
      (a + (rs.map fun r => lockersAvail r.lockers).sum,
        b + (rs.map fun r => lockersMax r.lockers).sum) := by
  induction rs with
  | nil => intro a b; simp
  | cons r rs ih =>
    intro a b
    simp only [List.foldl_cons]
    rw [ih]
    simp only [List.map_cons, List.sum_cons, Prod.mk.injEq]
    constructor <;> ring

theorem foldl_robot_caps (rs : List Robot) :
    ∀ a b : Int,
    rs.foldl
      (fun p r =>
        let s := calcRobotCapability r
        (p.1 + s.1, p.2 + s.2)) (a, b) =
      (a + (rs.map fun r => lockersAvail r.lockers).sum,
        b + (rs.map fun r => lockersMax r.lockers).sum) := by
  intro a b
  simp only [calcRobot_eq]
  exact foldl_robot_caps_clean rs a b

theorem foldl_str {α : Type} (f : α → String) (g : String → α → String)
    (hg : ∀ s x, g s x = s ++ f x) :
    ∀ (xs : List α) (init : String),
    xs.foldl g init = init ++ strConcat (xs.map f) := by
  intro xs
  induction xs with
  | nil => intro init; simp [strConcat, str_append_empty]
  | cons x xs ih =>
    intro init
    simp only [List.foldl_cons, List.map_cons, strConcat]
    rw [hg, ih, str_append_assoc]

theorem locker_line_step (pre : String) :
    ∀ (s : String) (l : Locker),
    s ++ pre ++ toString l.available_capability ++ " "
      ++ toString l.capability ++ "\n" = s ++ lockerLine pre l := by
  intro s l
  simp [lockerLine, str_append_assoc]

theorem robot_block_step :
    ∀ (s : String) (r : Robot),
    (let p := calcRobotCapability r
     let s1 := s ++ "    R " ++ toString p.1 ++ " " ++ toString p.2 ++ "\n"
     r.lockers.foldl
       (fun rp l =>
         rp ++ "        L " ++ toString l.available_capability ++ " "
           ++ toString l.capability ++ "\n") s1) = s ++ robotBlock r := by
  intro s r
  show r.lockers.foldl _ _ = _
  rw [foldl_str (lockerLine "        L ") _ (locker_line_step "        L ")]
  rw [calcRobot_eq]
  simp [robotBlock, str_append_assoc]

theorem generateReport_foldl (ms : List LockerRobotManager) :
    ∀ init : String,
    ms.foldl
      (fun report m =>
        let t0 : Int × Int :=
          m.lockers.foldl
            (fun p l => (p.1 + l.available_capability, p.2 + l.capability)) (0, 0)
        let t : Int × Int :=
          m.robots.foldl
            (fun p r =>
              let s := calcRobotCapability r
              (p.1 + s.1, p.2 + s.2)) t0
        let report := report ++ "M " ++ toString t.1 ++ " " ++ toString t.2 ++ "\n"
        let report :=
          m.lockers.foldl
            (fun rep l =>
              rep ++ "    L " ++ toString l.available_capability ++ " "
                ++ toString l.capability ++ "\n") report
        m.robots.foldl
          (fun rep r =>
            let s := calcRobotCapability r
            let rep := rep ++ "    R " ++ toString s.1 ++ " " ++ toString s.2 ++ "\n"
            r.lockers.foldl
              (fun rp l =>
                rp ++ "        L " ++ toString l.available_capability ++ " "
                  ++ toString l.capability ++ "\n") rep) report)
      init = init ++ strConcat (ms.map reportSpecBlock) := by
  induction ms with
  | nil => intro init; simp [strConcat, str_append_empty]
  | cons m ms ih =>
    intro init
    simp only [List.foldl_cons, List.map_cons, strConcat]
    rw [ih, ← str_append_assoc]
    congr 1
    show m.robots.foldl _ _ = _
    rw [foldl_str robotBlock _ robot_block_step]
    rw [foldl_str (lockerLine "    L ") _ (locker_line_step "    L ")]
    rw [foldl_caps m.lockers 0 0, foldl_robot_caps m.robots]
    simp [reportSpecBlock, managerAvail, managerMax, str_append_assoc]

/-- C8: generateReport produces, per manager in construction order, a totals
line summed over the own lockers plus all robot lockers, one 4-space
indented line per own locker, then per robot its aggregated totals line and
one 8-space indented line per robot locker (the structural statement is the
equality with reportSpec); in particular a director over one manager holding
a single untouched Locker(1) reports exactly "M 1 1\n    L 1 1\n". -/
theorem C8_report_structure :
    (∀ d : LockerRobotDirector, d.generateReport = reportSpec d) ∧
    LockerRobotDirector.generateReport
        ⟨[⟨[Locker.mk 1 1 []], []⟩]⟩ = "M 1 1\n    L 1 1\n" := by
  constructor
  · intro d
    simp only [LockerRobotDirector.generateReport]
    rw [generateReport_foldl d.managers ""]
    rw [str_empty_append]
    rfl
  · rfl
